import Mathlib

/-!
Verification of the activity-tracker repository's core logic.

The development shallowly embeds the JavaScript source (App.jsx,
components/TrendGraph.jsx, the word-cloud component) into Lean:

* JS strings are `String`; JS string comparison (`<`, `>`, used on ISO date
  strings) is UTF-16 code-unit lexicographic order, embedded as `charListLt`
  on the underlying character lists (identical to code-unit order on the
  Basic-Multilingual-Plane strings the app manipulates).
* JS numbers occurring in the embedded code paths are integers (durations,
  epoch-millisecond timestamps, hash values); they are embedded as `Int`/`Nat`.
  The hour/minute form fields are embedded as integers: the two
  `<input type="number" min="0" step="1">` elements only submit integral
  values (empty or non-numeric text coerces to 0 through `Number(x) || 0`).
* JS objects used as string-keyed dictionaries (`activityUsage`,
  `activityNames`) and the insertion-ordered `Map` of `aggregateForDate`
  are embedded as association lists with JS update semantics
  (update-in-place for an existing key, append for a new key).
* `Date` values are embedded as proleptic-Gregorian calendar dates; the
  local time zone is taken to be UTC, so `toISOString().split('T')[0]`
  agrees with the local calendar fields.
-/

/-! ## JS string comparison -/

/-- Lexicographic strict comparison of character lists; this is exactly the
relational semantics of `<` on JS strings (code-unit lexicographic order)
restricted to the characters the app uses. -/
def charListLt : List Char → List Char → Bool
  | [], [] => false
  | [], _ :: _ => true
  | _ :: _, [] => false
  | a :: as, b :: bs => if a < b then true else if b < a then false else charListLt as bs

/-- JS `s < t` on strings. -/
def jsLtStr (s t : String) : Bool := charListLt s.data t.data

/-- JS `s > t` on strings. -/
def jsGtStr (s t : String) : Bool := jsLtStr t s

theorem charListLt_irrefl (l : List Char) : charListLt l l = false := by
  induction l with
  | nil => rfl
  | cons a as ih => simp [charListLt, ih]

theorem charListLt_trans {a b c : List Char} (hab : charListLt a b = true)
    (hbc : charListLt b c = true) : charListLt a c = true := by
  induction a generalizing b c with
  | nil =>
    cases b with
    | nil => simp [charListLt] at hab
    | cons y ys =>
      cases c with
      | nil => simp [charListLt] at hbc
      | cons z zs => simp [charListLt]
  | cons x xs ih =>
    cases b with
    | nil => simp [charListLt] at hab
    | cons y ys =>
      cases c with
      | nil => simp [charListLt] at hbc
      | cons z zs =>
        simp only [charListLt] at hab hbc ⊢
        rcases lt_trichotomy x y with h1 | h1 | h1
        · rcases lt_trichotomy y z with h2 | h2 | h2
          · simp [lt_trans h1 h2]
          · subst h2; simp [h1]
          · have hyz : ¬ y < z := not_lt.mpr (le_of_lt h2)
            simp [hyz, h2] at hbc
        · subst h1
          rw [if_neg (lt_irrefl x), if_neg (lt_irrefl x)] at hab
          rcases lt_trichotomy x z with h2 | h2 | h2
          · simp [h2]
          · subst h2
            rw [if_neg (lt_irrefl x), if_neg (lt_irrefl x)] at hbc ⊢
            exact ih hab hbc
          · have hxz : ¬ x < z := not_lt.mpr (le_of_lt h2)
            simp [hxz, h2] at hbc
        · have hxy : ¬ x < y := not_lt.mpr (le_of_lt h1)
          simp [hxy, h1] at hab

theorem charListLt_asymm {a b : List Char} (hab : charListLt a b = true) :
    charListLt b a = false := by
  by_contra h
  have hba : charListLt b a = true := by
    cases hpos : charListLt b a
    · exact absurd hpos h
    · rfl
  have := charListLt_trans hab hba
  rw [charListLt_irrefl] at this
  exact Bool.false_ne_true this

theorem charListLt_trichotomy (a b : List Char) :
    charListLt a b = true ∨ a = b ∨ charListLt b a = true := by
  induction a generalizing b with
  | nil =>
    cases b with
    | nil => exact Or.inr (Or.inl rfl)
    | cons y ys => exact Or.inl (by simp [charListLt])
  | cons x xs ih =>
    cases b with
    | nil => exact Or.inr (Or.inr (by simp [charListLt]))
    | cons y ys =>
      rcases lt_trichotomy x y with hxy | hxy | hxy
      · exact Or.inl (by simp [charListLt, hxy])
      · subst hxy
        rcases ih ys with h | h | h
        · exact Or.inl (by simp [charListLt, h])
        · exact Or.inr (Or.inl (by rw [h]))
        · exact Or.inr (Or.inr (by simp [charListLt, h]))
      · exact Or.inr (Or.inr (by simp [charListLt, hxy]))

theorem jsLtStr_irrefl (s : String) : jsLtStr s s = false := charListLt_irrefl _

theorem jsLtStr_trans {a b c : String} (hab : jsLtStr a b = true)
    (hbc : jsLtStr b c = true) : jsLtStr a c = true := charListLt_trans hab hbc

theorem jsLtStr_asymm {a b : String} (hab : jsLtStr a b = true) :
    jsLtStr b a = false := charListLt_asymm hab

theorem jsLtStr_trichotomy (a b : String) :
    jsLtStr a b = true ∨ a = b ∨ jsLtStr b a = true := by
  rcases charListLt_trichotomy a.data b.data with h | h | h
  · exact Or.inl h
  · refine Or.inr (Or.inl ?_)
    cases a; cases b
    exact congrArg String.mk h
  · exact Or.inr (Or.inr h)

/-! ## Activity-name normalization (App.jsx lines 20–29) -/

/-- The whitespace characters `String.prototype.trim` strips, restricted to
those that can occur in the app's inputs. -/
def jsWhitespace (c : Char) : Bool :=
  c == ' ' || c == '\t' || c == '\n' || c == '\r'

/-- `name.trim()`: strip leading and trailing whitespace. -/
def jsTrim (s : String) : String :=
  ⟨((s.data.dropWhile jsWhitespace).reverse.dropWhile jsWhitespace).reverse⟩

/-- `name.toLowerCase()` (ASCII case mapping, which covers the app's
activity names). -/
def jsToLower (s : String) : String := ⟨s.data.map Char.toLower⟩

/-- `normalizeActivityName = (name) => name.trim().toLowerCase()`. -/
def normalizeActivityName (name : String) : String := jsToLower (jsTrim name)

/-! ## JS objects as association lists -/

/-- Lookup in a string-keyed JS object (association list; objects have
duplicate-free keys, so first-match lookup is the object lookup). -/
def objGet {α : Type} (m : List (String × α)) (k : String) : Option α :=
  match m with
  | [] => none
  | p :: ps => if p.1 = k then some p.2 else objGet ps k

/-- JS `{...prev, [k]: v}` / `Map.set`: update in place when the key exists,
append otherwise (both preserve enumeration order). -/
def objSet {α : Type} (m : List (String × α)) (k : String) (v : α) :
    List (String × α) :=
  match m with
  | [] => [(k, v)]
  | p :: ps => if p.1 = k then (k, v) :: ps else p :: objSet ps k v

/-- `getDisplayName = (normalizedName, activityNames) =>
activityNames[normalizedName] || normalizedName` — the `||` falls through to
the key itself when the entry is absent (or the empty string). -/
def getDisplayName (normalizedName : String) (activityNames : List (String × String)) :
    String :=
  match objGet activityNames normalizedName with
  | some s => if s = "" then normalizedName else s
  | none => normalizedName

theorem objGet_set_self {α : Type} (m : List (String × α)) (k : String) (v : α) :
    objGet (objSet m k v) k = some v := by
  induction m with
  | nil => simp [objSet, objGet]
  | cons q qs ih =>
    by_cases hq : q.1 = k
    · simp [objSet, objGet, hq]
    · simp [objSet, objGet, hq, ih]

theorem objGet_set_ne {α : Type} (m : List (String × α)) (k k' : String) (v : α)
    (h : k' ≠ k) : objGet (objSet m k v) k' = objGet m k' := by
  induction m with
  | nil => simp [objSet, objGet, Ne.symm h]
  | cons q qs ih =>
    by_cases hq : q.1 = k
    · have hq' : ¬ q.1 = k' := fun hc => h (by rw [← hc, hq])
      simp [objSet, objGet, hq, hq', Ne.symm h]
    · by_cases hq' : q.1 = k'
      · simp [objSet, objGet, hq, hq', h]
      · simp [objSet, objGet, hq, hq', ih]

/-! ## JS `Array.prototype.sort`

`Array.prototype.sort(comparator)` is specified to be stable and to order
by the comparator's sign. It is embedded as a stable insertion sort: each
element is inserted after the already-placed elements the comparator does
not strictly order after it. -/

/-- Insert `x` after every `y` with `le y x` (so ties keep earlier elements
first). -/
def insertStable {α : Type} (le : α → α → Bool) (x : α) : List α → List α
  | [] => [x]
  | y :: ys => if le y x then y :: insertStable le x ys else x :: y :: ys

/-- Stable comparator sort (the JS `sort`). -/
def jsSortStable {α : Type} (le : α → α → Bool) (l : List α) : List α :=
  l.foldl (fun acc x => insertStable le x acc) []

theorem insertStable_perm {α : Type} (le : α → α → Bool) (x : α) (l : List α) :
    (insertStable le x l).Perm (x :: l) := by
  induction l with
  | nil => simp [insertStable]
  | cons y ys ih =>
    by_cases h : le y x
    · simp only [insertStable, h, if_true]
      exact (ih.cons y).trans (List.Perm.swap x y ys)
    · simp [insertStable, h]

theorem jsSortStable_perm {α : Type} (le : α → α → Bool) (l : List α) :
    (jsSortStable le l).Perm l := by
  suffices h : ∀ (l acc : List α),
      (l.foldl (fun acc x => insertStable le x acc) acc).Perm (acc ++ l) by
    simpa using h l []
  intro l
  induction l with
  | nil => simp
  | cons x xs ih =>
    intro acc
    refine (ih (insertStable le x acc)).trans ?_
    refine (((insertStable_perm le x acc).append_right xs).trans ?_)
    exact List.perm_middle.symm

theorem insertStable_sorted {α : Type} {le : α → α → Bool}
    (htotal : ∀ a b, le a b = true ∨ le b a = true)
    (htrans : ∀ a b c, le a b = true → le b c = true → le a c = true)
    (x : α) {l : List α} (hl : l.Pairwise (fun a b => le a b = true)) :
    (insertStable le x l).Pairwise (fun a b => le a b = true) := by
  induction l with
  | nil => simp [insertStable]
  | cons y ys ih =>
    rcases List.pairwise_cons.mp hl with ⟨hy, hys⟩
    by_cases h : le y x
    · simp only [insertStable, h, if_true]
      refine List.pairwise_cons.mpr ⟨?_, ih hys⟩
      intro z hz
      have hz' : z ∈ x :: ys := (insertStable_perm le x ys).mem_iff.mp hz
      rcases List.mem_cons.mp hz' with hz' | hz'
      · subst hz'; exact h
      · exact hy z hz'
    · have hx : le x y = true := by
        rcases htotal x y with h' | h'
        · exact h'
        · exact absurd h' h
      simp only [insertStable, h, if_false]
      refine List.pairwise_cons.mpr ⟨?_, hl⟩
      intro z hz
      rcases List.mem_cons.mp hz with hz | hz
      · subst hz; exact hx
      · exact htrans x y z hx (hy z hz)

theorem jsSortStable_sorted {α : Type} {le : α → α → Bool}
    (htotal : ∀ a b, le a b = true ∨ le b a = true)
    (htrans : ∀ a b c, le a b = true → le b c = true → le a c = true)
    (l : List α) :
    (jsSortStable le l).Pairwise (fun a b => le a b = true) := by
  suffices h : ∀ (l acc : List α),
      acc.Pairwise (fun a b => le a b = true) →
      (l.foldl (fun acc x => insertStable le x acc) acc).Pairwise
        (fun a b => le a b = true) by
    exact h l [] List.Pairwise.nil
  intro l
  induction l with
  | nil => intro acc hacc; exact hacc
  | cons x xs ih =>
    intro acc hacc
    exact ih (insertStable le x acc) (insertStable_sorted htotal htrans x hacc)

/-- Two lists that are permutations of each other, both sorted for the
comparator, and on which the comparator separates distinct elements, are
equal. -/
theorem sorted_perm_unique {α : Type} {le : α → α → Bool} :
    ∀ {l1 l2 : List α}, l1.Perm l2 →
      l1.Pairwise (fun a b => le a b = true) →
      l2.Pairwise (fun a b => le a b = true) →
      (∀ a ∈ l1, ∀ b ∈ l1, le a b = true → le b a = true → a = b) →
      l1 = l2 := by
  intro l1
  induction l1 with
  | nil =>
    intro l2 hperm _ _ _
    exact hperm.nil_eq
  | cons a t1 ih =>
    intro l2 hperm h1 h2 hanti
    cases l2 with
    | nil => exact absurd hperm.symm.nil_eq (by simp)
    | cons b t2 =>
      rcases List.pairwise_cons.mp h1 with ⟨ha, ht1⟩
      rcases List.pairwise_cons.mp h2 with ⟨hb, ht2⟩
      have hab : a = b := by
        by_contra hne
        have hamem : a ∈ b :: t2 := hperm.mem_iff.mp (by simp)
        have hat2 : a ∈ t2 := by
          rcases List.mem_cons.mp hamem with h | h
          · exact absurd h hne
          · exact h
        have hbmem : b ∈ a :: t1 := hperm.symm.mem_iff.mp (by simp)
        have hbt1 : b ∈ t1 := by
          rcases List.mem_cons.mp hbmem with h | h
          · exact absurd h.symm hne
          · exact h
        exact hne (hanti a (by simp) b (by simp [hbt1])
          (ha b hbt1) (hb a hat2))
      subst hab
      have htail : t1.Perm t2 := hperm.cons_inv
      have := ih htail ht1 ht2
        (fun x hx y hy hxy hyx => hanti x (by simp [hx]) y (by simp [hy]) hxy hyx)
      rw [this]

/-! ## Calendar core

The JS `Date` values manipulated by the app are embedded as proleptic
Gregorian calendar dates at local midnight, with the local time zone taken
to be UTC. A date is represented by its civil fields (`year`, 1-based
`month`, 1-based `day`); `toRD`/`fromRD` convert to and from the count of
days since 1970-01-01 (the day number of the JS epoch), which is how JS
`Date` stores time and normalizes out-of-range field updates such as
`setDate(0)`. -/

/-- Gregorian leap-year rule (what `Date` implements). -/
def isLeap (y : Nat) : Bool := y % 4 = 0 && (y % 100 ≠ 0 || y % 400 = 0)

def daysInYear (y : Nat) : Nat := if isLeap y then 366 else 365

/-- Length of 1-based month `m` of year `y` (out-of-range months, which only
feed the bounded month scan below, default to 31). -/
def daysInMonth (y : Nat) (m : Nat) : Nat :=
  match m with
  | 1 => 31
  | 2 => if isLeap y then 29 else 28
  | 3 => 31
  | 4 => 30
  | 5 => 31
  | 6 => 30
  | 7 => 31
  | 8 => 31
  | 9 => 30
  | 10 => 31
  | 11 => 30
  | 12 => 31
  | _ => 31

structure CivilDate where
  year : Nat
  month : Nat
  day : Nat
deriving DecidableEq, Repr

/-- The civil dates in the model's domain (years from 1970, real months and
days). -/
def validDate (d : CivilDate) : Prop :=
  1970 ≤ d.year ∧ 1 ≤ d.month ∧ d.month ≤ 12 ∧ 1 ≤ d.day ∧
    d.day ≤ daysInMonth d.year d.month

instance (d : CivilDate) : Decidable (validDate d) := by
  unfold validDate; infer_instance

/-- Days in years `1970, …, y-1` (0 for `y ≤ 1970`). -/
def daysBeforeYear : Nat → Nat
  | 0 => 0
  | y + 1 => if y + 1 ≤ 1970 then 0 else daysBeforeYear y + daysInYear y

/-- Days in months `1, …, m-1` of year `y`. -/
def daysBeforeMonth (y : Nat) : Nat → Nat
  | 0 => 0
  | 1 => 0
  | m + 2 => daysBeforeMonth y (m + 1) + daysInMonth y (m + 1)

/-- Day number (days since 1970-01-01) of a civil date. -/
def toRD (d : CivilDate) : Nat :=
  daysBeforeYear d.year + daysBeforeMonth d.year d.month + (d.day - 1)

/-- Year scan of day-number → civil conversion: starting at year `y` with
`n` days left, consume whole years. The fuel argument only makes the
recursion structural; `n + 1` units are always enough. -/
def yearPeelF : Nat → Nat → Nat → Nat × Nat
  | 0, y, n => (y, n)
  | fuel + 1, y, n =>
    if n < daysInYear y then (y, n) else yearPeelF fuel (y + 1) (n - daysInYear y)

/-- Month scan: starting at month `m` of year `y` with `doy` days left,
consume whole months. -/
def monthPeelF : Nat → Nat → Nat → Nat → Nat × Nat
  | 0, _, m, doy => (m, doy)
  | fuel + 1, y, m, doy =>
    if doy < daysInMonth y m then (m, doy) else
      monthPeelF fuel y (m + 1) (doy - daysInMonth y m)

/-- Year and day-of-year of a day number. -/
def fromRDp (n : Nat) : Nat × Nat := yearPeelF (n + 1) 1970 n

/-- Month and day-of-month (0-based) of a day number. -/
def fromRDq (n : Nat) : Nat × Nat := monthPeelF 12 (fromRDp n).1 1 (fromRDp n).2

/-- Civil date of a day number (inverse of `toRD` on the valid domain). -/
def fromRD (n : Nat) : CivilDate :=
  ⟨(fromRDp n).1, (fromRDq n).1, (fromRDq n).2 + 1⟩

/-- `Date.prototype.getDay`: 1970-01-01 (day number 0) was a Thursday (4). -/
def dayOfWeek (d : CivilDate) : Nat := (toRD d + 4) % 7

theorem daysBeforeYear_succ {y : Nat} (h : 1970 ≤ y) :
    daysBeforeYear (y + 1) = daysBeforeYear y + daysInYear y := by
  have h' : ¬ (y + 1 ≤ 1970) := by omega
  simp [daysBeforeYear, h']

theorem daysBeforeYear_le {y1 y2 : Nat} (h12 : y1 ≤ y2) (h : 1970 ≤ y1) :
    daysBeforeYear y1 ≤ daysBeforeYear y2 := by
  induction y2 with
  | zero => omega
  | succ y ih =>
    rcases Nat.lt_or_ge y1 (y + 1) with hlt | hge
    · have h1970 : 1970 ≤ y := by omega
      rw [daysBeforeYear_succ h1970]
      have := ih (by omega)
      omega
    · have : y1 = y + 1 := by omega
      rw [this]

theorem daysBeforeYear_add_le {y1 y2 : Nat} (h12 : y1 < y2) (h : 1970 ≤ y1) :
    daysBeforeYear y1 + daysInYear y1 ≤ daysBeforeYear y2 := by
  have step : daysBeforeYear (y1 + 1) = daysBeforeYear y1 + daysInYear y1 :=
    daysBeforeYear_succ h
  have mono : daysBeforeYear (y1 + 1) ≤ daysBeforeYear y2 :=
    daysBeforeYear_le (by omega) (by omega)
  omega

theorem daysInYear_pos (y : Nat) : 365 ≤ daysInYear y := by
  unfold daysInYear; split <;> omega

theorem daysInMonth_pos (y m : Nat) : 28 ≤ daysInMonth y m := by
  unfold daysInMonth
  split <;> first | omega | (split <;> omega)

theorem daysBeforeMonth_succ (y : Nat) {m : Nat} (h : 1 ≤ m) :
    daysBeforeMonth y (m + 1) = daysBeforeMonth y m + daysInMonth y m := by
  obtain ⟨k, rfl⟩ : ∃ k, m = k + 1 := ⟨m - 1, by omega⟩
  rfl

theorem daysBeforeMonth_le (y : Nat) {m1 m2 : Nat} (h1 : 1 ≤ m1) (h12 : m1 ≤ m2) :
    daysBeforeMonth y m1 ≤ daysBeforeMonth y m2 := by
  induction m2 with
  | zero => omega
  | succ m ih =>
    rcases Nat.lt_or_ge m1 (m + 1) with hlt | hge
    · rw [daysBeforeMonth_succ y (by omega : 1 ≤ m)]
      have := ih (by omega)
      omega
    · have : m1 = m + 1 := by omega
      rw [this]

theorem daysBeforeMonth_year (y : Nat) : daysBeforeMonth y 13 = daysInYear y := by
  rcases h : isLeap y <;>
    simp [daysBeforeMonth, daysInMonth, daysInYear, h]

theorem yearPeelF_spec :
    ∀ fuel y n, n < fuel → 1970 ≤ y →
      daysBeforeYear (yearPeelF fuel y n).1 + (yearPeelF fuel y n).2 =
          daysBeforeYear y + n ∧
        (yearPeelF fuel y n).2 < daysInYear (yearPeelF fuel y n).1 ∧
        1970 ≤ (yearPeelF fuel y n).1 := by
  intro fuel
  induction fuel with
  | zero => intro y n h; omega
  | succ fuel ih =>
    intro y n h hy
    by_cases hn : n < daysInYear y
    · simp [yearPeelF, hn, hy]
    · have hpos := daysInYear_pos y
      have hrec := ih (y + 1) (n - daysInYear y) (by omega) (by omega)
      have hstep := daysBeforeYear_succ hy
      simp only [yearPeelF, hn, if_false]
      refine ⟨?_, hrec.2.1, by omega⟩
      omega

theorem monthPeelF_spec :
    ∀ fuel y m doy, 1 ≤ m → m + fuel = 13 →
      daysBeforeMonth y m + doy < daysInYear y →
      daysBeforeMonth y (monthPeelF fuel y m doy).1 + (monthPeelF fuel y m doy).2 =
          daysBeforeMonth y m + doy ∧
        (monthPeelF fuel y m doy).2 < daysInMonth y (monthPeelF fuel y m doy).1 ∧
        1 ≤ (monthPeelF fuel y m doy).1 ∧ (monthPeelF fuel y m doy).1 ≤ 12 := by
  intro fuel
  induction fuel with
  | zero =>
    intro y m doy hm hfuel hbound
    -- fuel 0 means m = 13, but then the precondition is contradictory
    have hm13 : m = 13 := by omega
    subst hm13
    have h13 : daysBeforeMonth y 13 = daysInYear y := daysBeforeMonth_year y
    omega
  | succ fuel ih =>
    intro y m doy hm hfuel hbound
    by_cases hd : doy < daysInMonth y m
    · have hm12 : m ≤ 12 := by omega
      simp [monthPeelF, hd, hm, hm12]
    · have hstep := daysBeforeMonth_succ y hm
      have hrec := ih y (m + 1) (doy - daysInMonth y m) (by omega) (by omega)
        (by omega)
      simp only [monthPeelF, hd, if_false]
      refine ⟨by omega, hrec.2.1, hrec.2.2⟩

theorem daysBeforeYear_epoch : daysBeforeYear 1970 = 0 := by
  have : (1970 : Nat) = 1969 + 1 := by norm_num
  rw [this]
  simp [daysBeforeYear]

/-- `fromRD` is a right inverse of `toRD`, and lands on a valid date. -/
theorem toRD_fromRD (n : Nat) : toRD (fromRD n) = n ∧ validDate (fromRD n) := by
  have hy : daysBeforeYear (fromRDp n).1 + (fromRDp n).2 =
        daysBeforeYear 1970 + n ∧
      (fromRDp n).2 < daysInYear (fromRDp n).1 ∧ 1970 ≤ (fromRDp n).1 :=
    yearPeelF_spec (n + 1) 1970 n (by omega) (by omega)
  have hbound : daysBeforeMonth (fromRDp n).1 1 + (fromRDp n).2 <
      daysInYear (fromRDp n).1 := by
    simp only [daysBeforeMonth]
    omega
  have hmspec : daysBeforeMonth (fromRDp n).1 (fromRDq n).1 + (fromRDq n).2 =
        daysBeforeMonth (fromRDp n).1 1 + (fromRDp n).2 ∧
      (fromRDq n).2 < daysInMonth (fromRDp n).1 (fromRDq n).1 ∧
      1 ≤ (fromRDq n).1 ∧ (fromRDq n).1 ≤ 12 :=
    monthPeelF_spec 12 (fromRDp n).1 1 (fromRDp n).2 (by omega) (by omega) hbound
  have hepoch := daysBeforeYear_epoch
  simp only [daysBeforeMonth] at hmspec
  constructor
  · show daysBeforeYear (fromRD n).year +
        daysBeforeMonth (fromRD n).year (fromRD n).month + ((fromRD n).day - 1) = n
    simp only [fromRD]
    omega
  · simp only [validDate, fromRD]
    refine ⟨by omega, by omega, by omega, by omega, by omega⟩

/-- On valid dates `fromRD` is also a left inverse of `toRD`. -/
theorem fromRD_toRD {d : CivilDate} (hd : validDate d) : fromRD (toRD d) = d := by
  obtain ⟨hy, hm1, hm12, hd1, hdm⟩ := hd
  have hepoch := daysBeforeYear_epoch
  set n := toRD d with hn
  have hy' : daysBeforeYear (fromRDp n).1 + (fromRDp n).2 =
        daysBeforeYear 1970 + n ∧
      (fromRDp n).2 < daysInYear (fromRDp n).1 ∧ 1970 ≤ (fromRDp n).1 :=
    yearPeelF_spec (n + 1) 1970 n (by omega) (by omega)
  set p := fromRDp n with hp
  -- The year component is unique
  have hofflt : daysBeforeMonth d.year d.month + (d.day - 1) < daysInYear d.year := by
    have h1 : daysBeforeMonth d.year d.month + daysInMonth d.year d.month =
        daysBeforeMonth d.year (d.month + 1) := (daysBeforeMonth_succ d.year hm1).symm
    have h2 : daysBeforeMonth d.year (d.month + 1) ≤ daysBeforeMonth d.year 13 :=
      daysBeforeMonth_le d.year (by omega) (by omega)
    have h3 := daysBeforeMonth_year d.year
    omega
  have hyear : p.1 = d.year := by
    by_contra hne
    rcases Nat.lt_or_ge p.1 d.year with hlt | hge
    · have := daysBeforeYear_add_le hlt hy'.2.2
      have hnlow : daysBeforeYear d.year ≤ n := by
        simp only [hn, toRD]; omega
      omega
    · have hgt : d.year < p.1 := by omega
      have := daysBeforeYear_add_le hgt hy
      have hnhigh : n < daysBeforeYear d.year + daysInYear d.year := by
        simp only [hn, toRD]; omega
      omega
  have hoff : p.2 = daysBeforeMonth d.year d.month + (d.day - 1) := by
    have := hy'.1
    rw [hyear] at this
    simp only [hn, toRD] at this ⊢
    omega
  have hbound : daysBeforeMonth p.1 1 + p.2 < daysInYear p.1 := by
    simp only [daysBeforeMonth]
    rw [hyear, hoff]
    omega
  have hm' := monthPeelF_spec 12 p.1 1 p.2 (by omega) (by omega) hbound
  set q := monthPeelF 12 p.1 1 p.2 with hq
  simp only [daysBeforeMonth] at hm'
  rw [hyear] at hm'
  rw [hoff] at hm'
  -- The month component is unique
  have hmonth : q.1 = d.month := by
    by_contra hne
    rcases Nat.lt_or_ge q.1 d.month with hlt | hge
    · have hstep : daysBeforeMonth d.year (q.1 + 1) =
          daysBeforeMonth d.year q.1 + daysInMonth d.year q.1 :=
        daysBeforeMonth_succ d.year (by omega)
      have hmono : daysBeforeMonth d.year (q.1 + 1) ≤ daysBeforeMonth d.year d.month :=
        daysBeforeMonth_le d.year (by omega) (by omega)
      omega
    · have hgt : d.month < q.1 := by omega
      have hstep : daysBeforeMonth d.year (d.month + 1) =
          daysBeforeMonth d.year d.month + daysInMonth d.year d.month :=
        daysBeforeMonth_succ d.year hm1
      have hmono : daysBeforeMonth d.year (d.month + 1) ≤ daysBeforeMonth d.year q.1 :=
        daysBeforeMonth_le d.year (by omega) (by omega)
      omega
  have hday : q.2 + 1 = d.day := by
    rw [hmonth] at hm'
    omega
  show (⟨p.1, q.1, q.2 + 1⟩ : CivilDate) = d
  rw [hyear, hmonth, hday]

/-! ## ISO-8601 date strings -/

/-- Zero-padded `k`-digit decimal rendering (most significant digit first),
as produced by `toISOString` / `String(x).padStart(2, "0")`. -/
def padDigits : Nat → Nat → List Char
  | 0, _ => []
  | k + 1, n => Nat.digitChar (n / 10 ^ k) :: padDigits k (n % 10 ^ k)

/-- `"YYYY-MM-DD"` rendering of a civil date (years up to 9999). -/
def toISO (d : CivilDate) : String :=
  ⟨padDigits 4 d.year ++ '-' :: (padDigits 2 d.month ++ '-' :: padDigits 2 d.day)⟩

def charDigit (c : Char) : Option Nat :=
  if '0' ≤ c ∧ c ≤ '9' then some (c.toNat - 48) else none

/-- Parse `"YYYY-MM-DD"` back to civil fields (purely syntactic). -/
def parseISO (s : String) : Option CivilDate :=
  match s.data with
  | [y1, y2, y3, y4, c1, m1, m2, c2, d1, d2] =>
    if c1 = '-' ∧ c2 = '-' then
      match charDigit y1, charDigit y2, charDigit y3, charDigit y4,
          charDigit m1, charDigit m2, charDigit d1, charDigit d2 with
      | some a, some b, some c, some d, some e, some f, some g, some h =>
        some ⟨a * 1000 + b * 100 + c * 10 + d, e * 10 + f, g * 10 + h⟩
      | _, _, _, _, _, _, _, _ => none
    else none
  | _ => none

theorem digitChar_lt_iff :
    ∀ x, x < 10 → ∀ y, y < 10 → (Nat.digitChar x < Nat.digitChar y ↔ x < y) := by
  decide

theorem digitChar_inj :
    ∀ x, x < 10 → ∀ y, y < 10 → (Nat.digitChar x = Nat.digitChar y ↔ x = y) := by
  decide

theorem padDigits_length (k n : Nat) : (padDigits k n).length = k := by
  induction k generalizing n with
  | zero => rfl
  | succ k ih => simp [padDigits, ih]

theorem padDigits_inj :
    ∀ k a b, a < 10 ^ k → b < 10 ^ k → (padDigits k a = padDigits k b ↔ a = b) := by
  intro k
  induction k with
  | zero => intro a b ha hb; simp [padDigits]; omega
  | succ k ih =>
    intro a b ha hb
    have hpow : 0 < 10 ^ k := Nat.pos_pow_of_pos k (by omega)
    have hda : a / 10 ^ k < 10 := by
      rw [Nat.div_lt_iff_lt_mul hpow]
      calc a < 10 ^ (k + 1) := ha
        _ = 10 ^ k * 10 := pow_succ 10 k
        _ ≤ 10 * 10 ^ k := by ring_nf; omega
    have hdb : b / 10 ^ k < 10 := by
      rw [Nat.div_lt_iff_lt_mul hpow]
      calc b < 10 ^ (k + 1) := hb
        _ = 10 ^ k * 10 := pow_succ 10 k
        _ ≤ 10 * 10 ^ k := by ring_nf; omega
    simp only [padDigits, List.cons.injEq]
    rw [digitChar_inj _ hda _ hdb,
      ih (a % 10 ^ k) (b % 10 ^ k) (Nat.mod_lt a hpow) (Nat.mod_lt b hpow)]
    constructor
    · rintro ⟨hq, hr⟩
      have hha := Nat.div_add_mod a (10 ^ k)
      have hhb := Nat.div_add_mod b (10 ^ k)
      rw [← hha, ← hhb, hq, hr]
    · rintro rfl
      exact ⟨rfl, rfl⟩

theorem padDigits_lt_iff :
    ∀ k a b, a < 10 ^ k → b < 10 ^ k →
      (charListLt (padDigits k a) (padDigits k b) = true ↔ a < b) := by
  intro k
  induction k with
  | zero => intro a b ha hb; simp [padDigits, charListLt]; omega
  | succ k ih =>
    intro a b ha hb
    have hpow : 0 < 10 ^ k := Nat.pos_pow_of_pos k (by omega)
    have hda : a / 10 ^ k < 10 := by
      rw [Nat.div_lt_iff_lt_mul hpow]
      calc a < 10 ^ (k + 1) := ha
        _ = 10 ^ k * 10 := pow_succ 10 k
        _ ≤ 10 * 10 ^ k := by ring_nf; omega
    have hdb : b / 10 ^ k < 10 := by
      rw [Nat.div_lt_iff_lt_mul hpow]
      calc b < 10 ^ (k + 1) := hb
        _ = 10 ^ k * 10 := pow_succ 10 k
        _ ≤ 10 * 10 ^ k := by ring_nf; omega
    simp only [padDigits, charListLt]
    rcases lt_trichotomy (a / 10 ^ k) (b / 10 ^ k) with h | h | h
    · have hc : Nat.digitChar (a / 10 ^ k) < Nat.digitChar (b / 10 ^ k) :=
        (digitChar_lt_iff _ hda _ hdb).mpr h
      have hab : a < b := Nat.lt_of_div_lt_div h
      simp [hc, hab]
    · rw [h]
      rw [if_neg (lt_irrefl _), if_neg (lt_irrefl _)]
      rw [ih (a % 10 ^ k) (b % 10 ^ k) (Nat.mod_lt a hpow) (Nat.mod_lt b hpow)]
      have key : 10 ^ k * (b / 10 ^ k) + a % 10 ^ k <
          10 ^ k * (b / 10 ^ k) + b % 10 ^ k ↔ a % 10 ^ k < b % 10 ^ k :=
        Nat.add_lt_add_iff_left
      have hha := Nat.div_add_mod a (10 ^ k)
      have hhb := Nat.div_add_mod b (10 ^ k)
      rw [h] at hha
      rw [hha, hhb] at key
      rw [key]
    · have hc : Nat.digitChar (b / 10 ^ k) < Nat.digitChar (a / 10 ^ k) :=
        (digitChar_lt_iff _ hdb _ hda).mpr h
      have hc' : ¬ Nat.digitChar (a / 10 ^ k) < Nat.digitChar (b / 10 ^ k) :=
        not_lt.mpr (le_of_lt hc)
      have hba : b < a := Nat.lt_of_div_lt_div h
      simp [hc, hc', Nat.lt_asymm hba]

theorem charListLt_cons_same (c : Char) (l1 l2 : List Char) :
    charListLt (c :: l1) (c :: l2) = charListLt l1 l2 := by
  simp [charListLt]

theorem charListLt_append :
    ∀ {p1 p2 s1 s2 : List Char}, p1.length = p2.length →
      (charListLt (p1 ++ s1) (p2 ++ s2) = true ↔
        (charListLt p1 p2 = true ∨ (p1 = p2 ∧ charListLt s1 s2 = true))) := by
  intro p1
  induction p1 with
  | nil =>
    intro p2 s1 s2 h
    have : p2 = [] := List.length_eq_zero.mp h.symm
    subst this
    simp [charListLt]
  | cons a as ih =>
    intro p2 s1 s2 h
    cases p2 with
    | nil => simp at h
    | cons b bs =>
      simp only [List.length_cons, Nat.succ.injEq] at h
      rcases lt_trichotomy a b with hab | hab | hab
      · simp [charListLt, hab]
      · subst hab
        simp only [List.cons_append, charListLt_cons_same, List.cons.injEq,
          true_and]
        exact ih h
      · have hab' : ¬ a < b := not_lt.mpr (le_of_lt hab)
        have hne : a ≠ b := Ne.symm (ne_of_lt hab)
        simp [charListLt, hab, hab', hne]

theorem toRD_offset_lt {d : CivilDate} (hd : validDate d) :
    daysBeforeMonth d.year d.month + (d.day - 1) < daysInYear d.year := by
  obtain ⟨hy, hm1, hm12, hd1, hdm⟩ := hd
  have h1 : daysBeforeMonth d.year (d.month + 1) =
      daysBeforeMonth d.year d.month + daysInMonth d.year d.month :=
    daysBeforeMonth_succ d.year hm1
  have h2 : daysBeforeMonth d.year (d.month + 1) ≤ daysBeforeMonth d.year 13 :=
    daysBeforeMonth_le d.year (by omega) (by omega)
  have h3 := daysBeforeMonth_year d.year
  omega

theorem toRD_lt_of_lex {d1 d2 : CivilDate} (h1 : validDate d1) (h2 : validDate d2)
    (hlex : d1.year < d2.year ∨
      (d1.year = d2.year ∧ (d1.month < d2.month ∨
        (d1.month = d2.month ∧ d1.day < d2.day)))) :
    toRD d1 < toRD d2 := by
  obtain ⟨hy1, hm11, hm121, hd11, hdm1⟩ := h1
  obtain ⟨hy2, hm12, hm122, hd12, hdm2⟩ := h2
  rcases hlex with hy | ⟨hyeq, hrest⟩
  · have hoff := toRD_offset_lt ⟨hy1, hm11, hm121, hd11, hdm1⟩
    have hstep := daysBeforeYear_add_le hy hy1
    have : daysBeforeYear d2.year ≤ toRD d2 := by
      simp only [toRD]; omega
    simp only [toRD] at *
    omega
  · rcases hrest with hm | ⟨hmeq, hd⟩
    · have hstep : daysBeforeMonth d1.year (d1.month + 1) =
          daysBeforeMonth d1.year d1.month + daysInMonth d1.year d1.month :=
        daysBeforeMonth_succ d1.year hm11
      have hmono : daysBeforeMonth d1.year (d1.month + 1) ≤
          daysBeforeMonth d1.year d2.month := by
        rw [hyeq]
        exact daysBeforeMonth_le d2.year (by omega) (by omega)
      simp only [toRD]
      rw [← hyeq] at *
      omega
    · simp only [toRD]
      rw [← hyeq, ← hmeq] at *
      omega

theorem toRD_lt_iff_lex {d1 d2 : CivilDate} (h1 : validDate d1) (h2 : validDate d2) :
    toRD d1 < toRD d2 ↔
      (d1.year < d2.year ∨
        (d1.year = d2.year ∧ (d1.month < d2.month ∨
          (d1.month = d2.month ∧ d1.day < d2.day)))) := by
  constructor
  · intro hlt
    rcases lt_trichotomy d1.year d2.year with hy | hy | hy
    · exact Or.inl hy
    · rcases lt_trichotomy d1.month d2.month with hm | hm | hm
      · exact Or.inr ⟨hy, Or.inl hm⟩
      · rcases lt_trichotomy d1.day d2.day with hd | hd | hd
        · exact Or.inr ⟨hy, Or.inr ⟨hm, hd⟩⟩
        · exfalso
          have : toRD d1 = toRD d2 := by simp only [toRD]; rw [hy, hm, hd]
          omega
        · exfalso
          have := toRD_lt_of_lex h2 h1 (Or.inr ⟨hy.symm, Or.inr ⟨hm.symm, hd⟩⟩)
          omega
      · exfalso
        have := toRD_lt_of_lex h2 h1 (Or.inr ⟨hy.symm, Or.inl hm⟩)
        omega
    · exfalso
      have := toRD_lt_of_lex h2 h1 (Or.inl hy)
      omega
  · exact toRD_lt_of_lex h1 h2

/-- For valid dates with 4-digit years, JS string comparison of the ISO
renderings agrees with day-number comparison. -/
theorem toISO_lt_iff {d1 d2 : CivilDate} (h1 : validDate d1) (h2 : validDate d2)
    (hy1 : d1.year ≤ 9999) (hy2 : d2.year ≤ 9999) :
    (jsLtStr (toISO d1) (toISO d2) = true ↔ toRD d1 < toRD d2) := by
  have hy1' : d1.year < 10 ^ 4 := by norm_num; omega
  have hy2' : d2.year < 10 ^ 4 := by norm_num; omega
  have hm1' : d1.month < 10 ^ 2 := by have := h1.2.2.1; norm_num; omega
  have hm2' : d2.month < 10 ^ 2 := by have := h2.2.2.1; norm_num; omega
  have hdm1 : d1.day ≤ 31 := by
    have := h1.2.2.2.2
    have h31 : daysInMonth d1.year d1.month ≤ 31 := by
      unfold daysInMonth
      split <;> first | omega | (split <;> omega)
    omega
  have hdm2 : d2.day ≤ 31 := by
    have := h2.2.2.2.2
    have h31 : daysInMonth d2.year d2.month ≤ 31 := by
      unfold daysInMonth
      split <;> first | omega | (split <;> omega)
    omega
  have hd1' : d1.day < 10 ^ 2 := by norm_num; omega
  have hd2' : d2.day < 10 ^ 2 := by norm_num; omega
  rw [toRD_lt_iff_lex h1 h2]
  show charListLt
      (padDigits 4 d1.year ++ '-' :: (padDigits 2 d1.month ++ '-' :: padDigits 2 d1.day))
      (padDigits 4 d2.year ++ '-' :: (padDigits 2 d2.month ++ '-' :: padDigits 2 d2.day))
      = true ↔ _
  rw [charListLt_append (by rw [padDigits_length, padDigits_length])]
  rw [padDigits_lt_iff 4 _ _ hy1' hy2', padDigits_inj 4 _ _ hy1' hy2']
  rw [charListLt_cons_same]
  rw [charListLt_append (by rw [padDigits_length, padDigits_length])]
  rw [padDigits_lt_iff 2 _ _ hm1' hm2', padDigits_inj 2 _ _ hm1' hm2']
  rw [charListLt_cons_same]
  rw [padDigits_lt_iff 2 _ _ hd1' hd2']

/-! ## JS `Date` field updates

JS `Date` stores a time value and normalizes out-of-range civil fields, so
`setDate(n)` means "first day of the current month plus `n - 1` days" and
`setMonth(m0, n)` means "first day of (0-based) month `m0`, normalized into
the year, plus `n - 1` days". -/

/-- `ref.setDate(n)` on a date in month (`year`, `month`). -/
def setDateOf (d : CivilDate) (n : Int) : CivilDate :=
  fromRD ((toRD ⟨d.year, d.month, 1⟩ : Int) + (n - 1)).toNat

/-- `d.setDate(d.getDate() + n)` — calendar-day arithmetic (App.jsx `addDays`
core). -/
def addDaysD (d : CivilDate) (n : Int) : CivilDate := setDateOf d ((d.day : Int) + n)

/-- `ref.setMonth(m0, n)` with a 0-based month index `m0` (possibly ≥ 12,
rolling into later years). -/
def setMonthDay (d : CivilDate) (m0 : Nat) (n : Int) : CivilDate :=
  fromRD ((toRD ⟨d.year + m0 / 12, m0 % 12 + 1, 1⟩ : Int) + (n - 1)).toNat

theorem addDaysD_rd {d : CivilDate} (hd : validDate d) (n : Int) :
    addDaysD d n = fromRD ((toRD d : Int) + n).toNat := by
  obtain ⟨hy, hm1, hm12, hd1, hdm⟩ := hd
  unfold addDaysD setDateOf
  have harg : (toRD ⟨d.year, d.month, 1⟩ : Int) + ((d.day : Int) + n - 1) =
      (toRD d : Int) + n := by
    simp only [toRD]
    push_cast
    omega
  rw [harg]

/-- `dayOfWeek` of a day number. -/
theorem dayOfWeek_fromRD (k : Nat) : dayOfWeek (fromRD k) = (k + 4) % 7 := by
  unfold dayOfWeek
  rw [(toRD_fromRD k).1]

/-- First day of the month after (`y`, `m`), as `setMonth(m, _)` computes it
(0-based index `m` of the next month), is `daysInMonth y m` days after the
first of (`y`, `m`). -/
theorem toRD_next_month {y m : Nat} (h1970 : 1970 ≤ y) (hm : 1 ≤ m)
    (hm12 : m ≤ 12) :
    toRD ⟨y + m / 12, m % 12 + 1, 1⟩ = toRD ⟨y, m, 1⟩ + daysInMonth y m := by
  rcases Nat.lt_or_ge m 12 with hlt | hge
  · have hdiv : m / 12 = 0 := Nat.div_eq_of_lt hlt
    have hmod : m % 12 = m := Nat.mod_eq_of_lt hlt
    rw [hdiv, hmod]
    simp only [toRD, Nat.add_zero]
    rw [daysBeforeMonth_succ y hm]
    omega
  · have hm' : m = 12 := by omega
    subst hm'
    have hstep : daysBeforeMonth y (12 + 1) = daysBeforeMonth y 12 + daysInMonth y 12 :=
      daysBeforeMonth_succ y (by omega)
    have h13 : daysBeforeMonth y 13 = daysInYear y := daysBeforeMonth_year y
    have h13' : daysBeforeMonth y 13 = daysBeforeMonth y (12 + 1) := by norm_num
    have hy1 := daysBeforeYear_succ h1970
    have hdiv : (12 : Nat) / 12 = 1 := by norm_num
    have hmod : (12 : Nat) % 12 = 0 := by norm_num
    rw [hdiv, hmod]
    simp only [toRD]
    have hb1 : daysBeforeMonth (y + 1) (0 + 1) = 0 := rfl
    rw [hb1]
    omega

theorem charDigit_digitChar : ∀ x, x < 10 → charDigit (Nat.digitChar x) = some x := by
  decide

/-- Parsing inverts rendering on the valid 4-digit-year domain. -/
theorem parseISO_toISO {d : CivilDate} (hd : validDate d) (hy : d.year ≤ 9999) :
    parseISO (toISO d) = some d := by
  obtain ⟨h1970, hm1, hm12, hd1, hdm⟩ := hd
  have hdm' : d.day ≤ 31 := by
    have h31 : daysInMonth d.year d.month ≤ 31 := by
      unfold daysInMonth
      split <;> first | omega | (split <;> omega)
    omega
  unfold toISO parseISO
  simp only [padDigits]
  norm_num
  rw [charDigit_digitChar _ (by omega), charDigit_digitChar _ (by omega),
    charDigit_digitChar _ (by omega), charDigit_digitChar _ (by omega),
    charDigit_digitChar _ (by omega), charDigit_digitChar _ (by omega),
    charDigit_digitChar _ (by omega), charDigit_digitChar _ (by omega)]
  simp only [Option.some.injEq]
  congr 1 <;> omega

/-! ## TrendGraph time ranges (components/TrendGraph.jsx lines 29–71) -/

/-- `dayOfWeek === 0 ? -6 : 1 - dayOfWeek`. -/
def mondayOffset (dow : Nat) : Int := if dow = 0 then -6 else 1 - (dow : Int)

/-- `dayOfWeek === 0 ? 0 : 7 - dayOfWeek`. -/
def sundayOffset (dow : Nat) : Int := if dow = 0 then 0 else 7 - (dow : Int)

/-- `getTimeRangeStart` on the parsed date. -/
def getTimeRangeStartD (d : CivilDate) (range : String) : CivilDate :=
  if range = "week" then addDaysD d (mondayOffset (dayOfWeek d))
  else if range = "month" then setDateOf d 1
  else if range = "year" then setMonthDay d 0 1
  else d

/-- `getTimeRangeEnd` on the parsed date (`setMonth(getMonth() + 1, 0)` with
0-based `getMonth() = month - 1` targets 0-based month index `month`). -/
def getTimeRangeEndD (d : CivilDate) (range : String) : CivilDate :=
  if range = "week" then addDaysD d (sundayOffset (dayOfWeek d))
  else if range = "month" then setMonthDay d d.month 0
  else if range = "year" then setMonthDay d 11 31
  else d

/-- `getTimeRangeStart(referenceDate, range)`: parse, switch on the range
unit, render with `toISOString().split('T')[0]`; the `default` branch
returns the argument unchanged. -/
def getTimeRangeStart (referenceDate : String) (range : String) : String :=
  match parseISO referenceDate with
  | some d =>
    if range = "week" ∨ range = "month" ∨ range = "year" then
      toISO (getTimeRangeStartD d range)
    else referenceDate
  | none => referenceDate

def getTimeRangeEnd (referenceDate : String) (range : String) : String :=
  match parseISO referenceDate with
  | some d =>
    if range = "week" ∨ range = "month" ∨ range = "year" then
      toISO (getTimeRangeEndD d range)
    else referenceDate
  | none => referenceDate

theorem daysBeforeYear_1971 : daysBeforeYear 1971 = 365 := by decide

/-- A day number's lower bound from its year. -/
theorem toRD_year_le (d : CivilDate) :
    daysBeforeYear d.year ≤ toRD d := by
  simp only [toRD]; omega

/-- The week window start (Monday offset applied) is a Monday, for any valid
reference date from 1971 on. -/
theorem weekStart_is_monday {d : CivilDate} (hd : validDate d)
    (hy : 1971 ≤ d.year) :
    dayOfWeek (getTimeRangeStartD d "week") = 1 := by
  have hrd : 365 ≤ toRD d := by
    have h1 := toRD_year_le d
    have h2 : daysBeforeYear 1971 ≤ daysBeforeYear d.year :=
      daysBeforeYear_le hy (by omega)
    rw [daysBeforeYear_1971] at h2
    omega
  have hstart : getTimeRangeStartD d "week" =
      fromRD ((toRD d : Int) + mondayOffset (dayOfWeek d)).toNat := by
    simp only [getTimeRangeStartD, if_pos rfl]
    exact addDaysD_rd hd _
  rw [hstart, dayOfWeek_fromRD]
  unfold mondayOffset dayOfWeek
  by_cases h0 : (toRD d + 4) % 7 = 0
  · rw [if_pos h0]
    omega
  · rw [if_neg h0]
    omega

/-- The week window end (Sunday offset applied) is a Sunday. -/
theorem weekEnd_is_sunday {d : CivilDate} (hd : validDate d) :
    dayOfWeek (getTimeRangeEndD d "week") = 0 := by
  have hend : getTimeRangeEndD d "week" =
      fromRD ((toRD d : Int) + sundayOffset (dayOfWeek d)).toNat := by
    simp only [getTimeRangeEndD, if_pos rfl]
    exact addDaysD_rd hd _
  rw [hend, dayOfWeek_fromRD]
  unfold sundayOffset dayOfWeek
  by_cases h0 : (toRD d + 4) % 7 = 0
  · rw [if_pos h0]
    omega
  · rw [if_neg h0]
    omega

/-- On a Sunday reference the week start is exactly 6 days back. -/
theorem weekStart_sunday_offset {d : CivilDate} (hd : validDate d)
    (hy : 1971 ≤ d.year) (h0 : dayOfWeek d = 0) :
    toRD (getTimeRangeStartD d "week") = toRD d - 6 := by
  have hrd : 365 ≤ toRD d := by
    have h1 := toRD_year_le d
    have h2 : daysBeforeYear 1971 ≤ daysBeforeYear d.year :=
      daysBeforeYear_le hy (by omega)
    rw [daysBeforeYear_1971] at h2
    omega
  have hstart : getTimeRangeStartD d "week" =
      fromRD ((toRD d : Int) + mondayOffset (dayOfWeek d)).toNat := by
    simp only [getTimeRangeStartD, if_pos rfl]
    exact addDaysD_rd hd _
  rw [hstart, (toRD_fromRD _).1]
  unfold mondayOffset
  rw [if_pos h0]
  omega

/-- The month window start is the first of the reference month. -/
theorem monthStart_spec {d : CivilDate} (hd : validDate d) :
    getTimeRangeStartD d "month" = ⟨d.year, d.month, 1⟩ := by
  obtain ⟨hy, hm1, hm12, hd1, hdm⟩ := hd
  have hvalid1 : validDate ⟨d.year, d.month, 1⟩ := by
    refine ⟨hy, hm1, hm12, le_refl 1, ?_⟩
    show 1 ≤ daysInMonth d.year d.month
    have := daysInMonth_pos d.year d.month
    omega
  simp only [getTimeRangeStartD]
  norm_num
  show setDateOf d 1 = _
  unfold setDateOf
  have harg : ((toRD ⟨d.year, d.month, 1⟩ : Int) + (1 - 1)).toNat =
      toRD ⟨d.year, d.month, 1⟩ := by omega
  rw [harg]
  exact fromRD_toRD hvalid1

/-- The month window end is the last calendar day of the reference month. -/
theorem monthEnd_spec {d : CivilDate} (hd : validDate d) :
    getTimeRangeEndD d "month" = ⟨d.year, d.month, daysInMonth d.year d.month⟩ := by
  obtain ⟨hy, hm1, hm12, hd1, hdm⟩ := hd
  have hvalidL : validDate ⟨d.year, d.month, daysInMonth d.year d.month⟩ := by
    refine ⟨hy, hm1, hm12, ?_, le_refl _⟩
    show 1 ≤ daysInMonth d.year d.month
    have := daysInMonth_pos d.year d.month
    omega
  simp only [getTimeRangeEndD]
  norm_num
  show setMonthDay d d.month 0 = _
  unfold setMonthDay
  have hnext := toRD_next_month (y := d.year) (m := d.month) hy hm1 hm12
  have hlast : toRD ⟨d.year, d.month, daysInMonth d.year d.month⟩ =
      toRD ⟨d.year, d.month, 1⟩ + (daysInMonth d.year d.month - 1) := by
    simp only [toRD]
    have := daysInMonth_pos d.year d.month
    omega
  have harg : ((toRD ⟨d.year + d.month / 12, d.month % 12 + 1, 1⟩ : Int) +
      (0 - 1)).toNat = toRD ⟨d.year, d.month, daysInMonth d.year d.month⟩ := by
    rw [hnext, hlast]
    have := daysInMonth_pos d.year d.month
    omega
  rw [harg]
  exact fromRD_toRD hvalidL

/-! ## Application state (App.jsx)

One record holds the React state that the embedded handlers read and
write. Event handlers become pure state transformers; the ambient values
they sample (`toISODate(new Date())`, `Date.now()`, `crypto.randomUUID()`)
are packaged in `AddCtx`. The numeric hour/minute form fields hold the
values `Number(hours) || 0` / `Number(minutes) || 0` produce; the two
`<input type="number" min="0" step="1">` elements only submit integral
text (or empty text, which coerces to 0), so the fields are integers. -/

structure Session where
  id : String
  activity : String
  minutes : Int
  dateISO : String
deriving DecidableEq, Repr

structure JEntry where
  id : String
  word : String
  text : String
  dateISO : String
  timestamp : String
deriving DecidableEq, Repr

structure AppState where
  sessions : List Session
  journalEntries : List JEntry
  activityUsage : List (String × Int)
  activityNames : List (String × String)
  dateISO : String
  error : String
  activity : String
  hours : Int
  minutes : Int
  activityInput : String
  showDropdown : Bool
  selectedWord : String
  isPanelOpen : Bool
deriving DecidableEq, Repr

structure AddCtx where
  today : String
  now : Int
  newId : String
deriving DecidableEq, Repr

/-- `addSession` (App.jsx lines 208–268). `Number.isFinite` cannot fail on
the integer field model, so only the sign/range tests of the source remain;
every other branch is verbatim. On success the four form fields are
cleared (an emptied numeric field reads back as 0). -/
def addSession (ctx : AddCtx) (st : AppState) : AppState :=
  let st0 := { st with error := "" }
  if jsGtStr st.dateISO ctx.today then
    { st0 with error := "You can't add sessions for a future date." }
  else
    let name := jsTrim st.activity
    let hoursValue := st.hours
    let minutesValue := st.minutes
    let totalMinutes := hoursValue * 60 + minutesValue
    if name = "" then { st0 with error := "Enter an activity." }
    else if hoursValue < 0 then { st0 with error := "Hours must be >= 0." }
    else if minutesValue < 0 ∨ minutesValue > 59 then
      { st0 with error := "Minutes must be between 0 and 59." }
    else if totalMinutes ≤ 0 then
      { st0 with error := "Total time must be greater than 0." }
    else
      let normalizedName := normalizeActivityName name
      match st.sessions.find? (fun s =>
          normalizeActivityName s.activity = normalizedName &&
            s.dateISO = st.dateISO) with
      | some _ =>
        { st0 with error := "Activity \"" ++
            getDisplayName normalizedName st.activityNames ++
            "\" already exists for this date." }
      | none =>
        { st0 with
          activityUsage := objSet st.activityUsage normalizedName ctx.now
          activityNames := objSet st.activityNames normalizedName name
          sessions := st.sessions ++
            [⟨ctx.newId, name, totalMinutes, st.dateISO⟩]
          activity := ""
          hours := 0
          minutes := 0
          activityInput := ""
          showDropdown := false }

/-- `handleDeleteActivity` (App.jsx lines 309–328): one synchronous handler
filters both collections and closes the panel. -/
def handleDeleteActivity (st : AppState) : AppState :=
  if st.selectedWord = "" then st
  else
    let normalizedSelected := normalizeActivityName st.selectedWord
    { st with
      sessions := st.sessions.filter (fun s =>
        !(normalizeActivityName s.activity = normalizedSelected &&
          s.dateISO = st.dateISO))
      journalEntries := st.journalEntries.filter (fun e =>
        !(normalizeActivityName e.word = normalizedSelected &&
          e.dateISO = st.dateISO))
      isPanelOpen := false
      selectedWord := "" }

/-! ## Aggregation (App.jsx lines 43–57) -/

structure WordItem where
  text : String
  value : Int
deriving DecidableEq, Repr

/-- The insertion-ordered `Map` built by `aggregateForDate`'s loop:
`map.set(key, (map.get(key) || 0) + s.minutes)` for sessions on the date. -/
def aggMap (sessions : List Session) (isoDate : String) : List (String × Int) :=
  sessions.foldl
    (fun m s =>
      if s.dateISO = isoDate then
        objSet m (normalizeActivityName s.activity)
          ((objGet m (normalizeActivityName s.activity)).getD 0 + s.minutes)
      else m)
    []

/-- `aggregateForDate(sessions, isoDate, activityNames)`. -/
def aggregateForDate (sessions : List Session) (isoDate : String)
    (activityNames : List (String × String)) : List WordItem :=
  (aggMap sessions isoDate).map (fun p => ⟨getDisplayName p.1 activityNames, p.2⟩)

/-! ## Activity ranking (App.jsx lines 168–196) -/

/-- `[...new Set(xs)]`: deduplicate keeping first occurrences in order. -/
def jsSetDedup (l : List String) : List String :=
  l.foldl (fun acc x => if x ∈ acc then acc else acc ++ [x]) []

/-- `activityUsage[normalize(a)] || 0`. -/
def activityTime (usage : List (String × Int)) (a : String) : Int :=
  (objGet usage (normalizeActivityName a)).getD 0

/-- `s.localeCompare(t)` for the app's plain names: sign of code-unit
comparison. -/
def localeCompareModel (s t : String) : Int :=
  if jsLtStr s t then -1 else if jsLtStr t s then 1 else 0

/-- The three-tier comparator inside `allActivities`'s `sort`. -/
def activityCmp (usage : List (String × Int)) (a b : String) : Int :=
  let aTime := activityTime usage a
  let bTime := activityTime usage b
  if aTime > 0 ∧ bTime > 0 then bTime - aTime
  else if aTime > 0 ∧ bTime = 0 then -1
  else if bTime > 0 ∧ aTime = 0 then 1
  else localeCompareModel (jsToLower a) (jsToLower b)

/-- `allActivities`: distinct normalized names (first-seen order), mapped to
display names, sorted by the three-tier comparator (JS `sort` is stable). -/
def allActivities (sessions : List Session) (usage : List (String × Int))
    (names : List (String × String)) : List String :=
  jsSortStable (fun a b => decide (activityCmp usage a b ≤ 0))
    ((jsSetDedup (sessions.map (fun s => normalizeActivityName s.activity))).map
      (fun n => getDisplayName n names))

/-! ## Date navigation (App.jsx lines 30–34 and 399–443) -/

/-- App.jsx `addDays(iso, n)`: parse at local midnight, `setDate(getDate()+n)`,
render with the local-field `toISODate`. -/
def addDays (iso : String) (n : Int) : String :=
  match parseISO iso with
  | some d => toISO (addDaysD d n)
  | none => iso

/-- The next-day button: disabled at today, otherwise
`setDateISO(d => (d >= todayISO ? d : addDays(d, +1)))`. -/
def nextDayClick (todayISO dateISO : String) : String :=
  if dateISO = todayISO then dateISO
  else if jsLtStr dateISO todayISO = false then dateISO
  else addDays dateISO 1

/-- The previous-day button: `setDateISO(d => addDays(d, -1))`. -/
def prevDayClick (dateISO : String) : String := addDays dateISO (-1)

/-- The Today button: `setDateISO(todayISO)`. -/
def todayClick (todayISO : String) : String := todayISO

/-- The date picker `onChange`: `setDateISO(v > todayISO ? todayISO : v)`. -/
def datePickerChange (todayISO v : String) : String :=
  if jsGtStr v todayISO then todayISO else v

/-! ## Word-cloud engine (components, `D3WordCloud`)

All arithmetic in `hashString` and `mulberry32` passes through JS 32-bit
coercions (`|0`, `>>>0`, `Math.imul`, the bitwise operators), so every
intermediate is determined by its residue mod 2^32; the embedding keeps the
unsigned residue. The generator's float output is `out / 2^32` with a
32-bit integer numerator `out`, which the embedding returns directly. -/

/-- `hashString`: `h = (h << 5) - h + charCode; h |= 0` per character, then
`h >>> 0` — i.e. iterated `31*h + code mod 2^32` (character codes taken
from the Basic Multilingual Plane, where code units and code points agree). -/
def hashString (str : String) : Nat :=
  str.data.foldl (fun h c => (31 * h + c.toNat) % 4294967296) 0

/-- `Math.imul` as an operation on unsigned residues. -/
def imul32 (a b : Nat) : Nat := (a * b) % 4294967296

/-- The state increment `t += 0x6D2B79F5` of `mulberry32`. -/
def mulberry32Next (t : Nat) : Nat := (t + 0x6D2B79F5) % 4294967296

/-- The output scrambler of `mulberry32` (the returned float's 32-bit
numerator). -/
def mulberry32Out (t : Nat) : Nat :=
  let x1 := imul32 (t ^^^ (t >>> 15)) (1 ||| t)
  let x2 := x1 ^^^ ((x1 + imul32 (x1 ^^^ (x1 >>> 7)) (61 ||| x1)) % 4294967296)
  x2 ^^^ (x2 >>> 14)

/-- Generator state after `n` draws from `seed` (`seed >>> 0` on entry). -/
def mulberry32State (seed : Nat) : Nat → Nat
  | 0 => seed % 4294967296
  | n + 1 => mulberry32Next (mulberry32State seed n)

/-- The `n`-th (0-based) output numerator of `mulberry32(seed)`. -/
def mulberry32Stream (seed : Nat) (n : Nat) : Nat :=
  mulberry32Out (mulberry32State seed (n + 1))

/-- The component's input normalization: typed input makes the `String`/
`Number` coercions the identity, leaving the filter
`d.text && d.value > 0`. -/
def wordsOf (data : List WordItem) : List WordItem :=
  data.filter (fun d => d.text ≠ "" && d.value > 0)

/-- JS `String(v)` on the integer values occurring here. -/
def intToString (i : Int) : String :=
  if i < 0 then "-" ++ Nat.repr i.natAbs else Nat.repr i.toNat

/-- `words.slice().sort((a,b) => a.text.localeCompare(b.text))` — JS sort is
stable. -/
def sortWordsByText (ws : List WordItem) : List WordItem :=
  jsSortStable (fun a b => decide (localeCompareModel a.text b.text ≤ 0)) ws

/-- The canonical serialization `sorted.map(w => text:value).join('|')`. -/
def wordSig (ws : List WordItem) : String :=
  String.intercalate "|"
    ((sortWordsByText ws).map (fun w => w.text ++ ":" ++ intToString w.value))

/-- `derivedKey` when the caller passes no `layoutKey` (App.jsx passes
none): `auto:` prefixed signature. -/
def derivedKey (ws : List WordItem) : String := "auto:" ++ wordSig ws

/-- `.sort((a, b) => b.value - a.value)` on the filtered words (placement
order of the layout). -/
def sortWordsByValueDesc (ws : List WordItem) : List WordItem :=
  jsSortStable (fun a b => decide (b.value ≤ a.value)) ws

/-- Which canvas shrink factor the component picks (`0.85` for ≤ 4 words,
`0.92` for ≤ 8, none otherwise). -/
def shrinkClass (count : Nat) : Nat :=
  if count ≤ 4 then 0 else if count ≤ 8 then 1 else 2

/-! ## Aggregation lemmas -/

theorem objGet_none_iff {α : Type} (m : List (String × α)) (k : String) :
    objGet m k = none ↔ k ∉ m.map Prod.fst := by
  induction m with
  | nil => simp [objGet]
  | cons p ps ih =>
    by_cases hp : p.1 = k
    · simp [objGet, hp]
    · simp [objGet, hp, ih, Ne.symm hp]

theorem objSet_map_fst {α : Type} (m : List (String × α)) (k : String) (v : α) :
    (objSet m k v).map Prod.fst =
      if k ∈ m.map Prod.fst then m.map Prod.fst else m.map Prod.fst ++ [k] := by
  induction m with
  | nil => simp [objSet]
  | cons p ps ih =>
    by_cases hp : p.1 = k
    · simp [objSet, hp]
    · by_cases hmem : k ∈ ps.map Prod.fst
      · simp [objSet, hp, hmem, ih, Ne.symm hp]
      · simp [objSet, hp, hmem, ih, Ne.symm hp]

theorem objSet_nodup {α : Type} {m : List (String × α)} (k : String) (v : α)
    (h : (m.map Prod.fst).Nodup) : ((objSet m k v).map Prod.fst).Nodup := by
  rw [objSet_map_fst]
  by_cases hmem : k ∈ m.map Prod.fst
  · simpa [hmem] using h
  · simp only [hmem, if_false]
    simp [List.nodup_append, h, hmem]

theorem objGet_of_mem {α : Type} {m : List (String × α)} {k : String} {v : α}
    (hnodup : (m.map Prod.fst).Nodup) (hmem : (k, v) ∈ m) :
    objGet m k = some v := by
  induction m with
  | nil => simp at hmem
  | cons p ps ih =>
    rcases List.mem_cons.mp hmem with h | h
    · simp [objGet, ← h]
    · have hps : k ∈ ps.map Prod.fst :=
        List.mem_map.mpr ⟨(k, v), h, rfl⟩
      have hp : p.1 ≠ k := by
        intro hc
        have := (List.nodup_cons.mp hnodup).1
        rw [hc] at this
        exact this hps
      simp [objGet, hp]
      exact ih (List.nodup_cons.mp hnodup).2 h

/-- The running total stored by `aggMap`'s loop: fold the step over
`sessions` starting from `acc`. -/
def aggMapGo (sessions : List Session) (isoDate : String)
    (acc : List (String × Int)) : List (String × Int) :=
  sessions.foldl
    (fun m s =>
      if s.dateISO = isoDate then
        objSet m (normalizeActivityName s.activity)
          ((objGet m (normalizeActivityName s.activity)).getD 0 + s.minutes)
      else m)
    acc

theorem aggMap_eq_go (sessions : List Session) (isoDate : String) :
    aggMap sessions isoDate = aggMapGo sessions isoDate [] := rfl

theorem aggMapGo_nodup (sessions : List Session) (isoDate : String) :
    ∀ acc, (acc.map Prod.fst).Nodup →
      ((aggMapGo sessions isoDate acc).map Prod.fst).Nodup := by
  induction sessions with
  | nil => intro acc h; exact h
  | cons s rest ih =>
    intro acc h
    by_cases hs : s.dateISO = isoDate
    · have hstep : aggMapGo (s :: rest) isoDate acc =
          aggMapGo rest isoDate
            (objSet acc (normalizeActivityName s.activity)
              ((objGet acc (normalizeActivityName s.activity)).getD 0 + s.minutes)) := by
        simp [aggMapGo, hs]
      rw [hstep]
      exact ih _ (objSet_nodup _ _ h)
    · have hstep : aggMapGo (s :: rest) isoDate acc = aggMapGo rest isoDate acc := by
        simp [aggMapGo, hs]
      rw [hstep]
      exact ih _ h

theorem aggMapGo_keys (sessions : List Session) (isoDate : String) :
    ∀ acc k, k ∈ (aggMapGo sessions isoDate acc).map Prod.fst ↔
      (k ∈ acc.map Prod.fst ∨
        ∃ s ∈ sessions, s.dateISO = isoDate ∧
          normalizeActivityName s.activity = k) := by
  induction sessions with
  | nil => intro acc k; simp [aggMapGo]
  | cons s rest ih =>
    intro acc k
    by_cases hs : s.dateISO = isoDate
    · have hstep : aggMapGo (s :: rest) isoDate acc =
          aggMapGo rest isoDate
            (objSet acc (normalizeActivityName s.activity)
              ((objGet acc (normalizeActivityName s.activity)).getD 0 + s.minutes)) := by
        simp [aggMapGo, hs]
      rw [hstep, ih]
      rw [objSet_map_fst]
      by_cases hmem : normalizeActivityName s.activity ∈ acc.map Prod.fst
      · simp only [hmem, if_true]
        constructor
        · rintro (h | h)
          · exact Or.inl h
          · exact Or.inr (by obtain ⟨t, ht, h1, h2⟩ := h; exact ⟨t, by simp [ht], h1, h2⟩)
        · rintro (h | ⟨t, ht, h1, h2⟩)
          · exact Or.inl h
          · rcases List.mem_cons.mp ht with rfl | ht
            · exact Or.inl (h2 ▸ hmem)
            · exact Or.inr ⟨t, ht, h1, h2⟩
      · simp only [hmem, if_false]
        constructor
        · rintro (h | h)
          · rcases List.mem_append.mp h with h | h
            · exact Or.inl h
            · simp only [List.mem_singleton] at h
              exact Or.inr ⟨s, by simp, hs, h.symm⟩
          · exact Or.inr (by obtain ⟨t, ht, h1, h2⟩ := h; exact ⟨t, by simp [ht], h1, h2⟩)
        · rintro (h | ⟨t, ht, h1, h2⟩)
          · exact Or.inl (List.mem_append.mpr (Or.inl h))
          · rcases List.mem_cons.mp ht with rfl | ht
            · exact Or.inl (List.mem_append.mpr (Or.inr (by simp [h2])))
            · exact Or.inr ⟨t, ht, h1, h2⟩
    · have hstep : aggMapGo (s :: rest) isoDate acc = aggMapGo rest isoDate acc := by
        simp [aggMapGo, hs]
      rw [hstep, ih]
      constructor
      · rintro (h | ⟨t, ht, h1, h2⟩)
        · exact Or.inl h
        · exact Or.inr ⟨t, by simp [ht], h1, h2⟩
      · rintro (h | ⟨t, ht, h1, h2⟩)
        · exact Or.inl h
        · rcases List.mem_cons.mp ht with rfl | ht
          · exact absurd h1 hs
          · exact Or.inr ⟨t, ht, h1, h2⟩

theorem aggMapGo_value (sessions : List Session) (isoDate : String) :
    ∀ acc k, (objGet (aggMapGo sessions isoDate acc) k).getD 0 =
      (objGet acc k).getD 0 +
        (((sessions.filter (fun s => s.dateISO = isoDate &&
            normalizeActivityName s.activity = k)).map Session.minutes).sum) := by
  induction sessions with
  | nil => intro acc k; simp [aggMapGo]
  | cons s rest ih =>
    intro acc k
    by_cases hs : s.dateISO = isoDate
    · have hstep : aggMapGo (s :: rest) isoDate acc =
          aggMapGo rest isoDate
            (objSet acc (normalizeActivityName s.activity)
              ((objGet acc (normalizeActivityName s.activity)).getD 0 + s.minutes)) := by
        simp [aggMapGo, hs]
      rw [hstep, ih]
      by_cases hk : normalizeActivityName s.activity = k
      · subst hk
        rw [objGet_set_self]
        simp only [Option.getD_some, List.filter_cons]
        simp [hs]
        omega
      · rw [objGet_set_ne _ _ _ _ (fun hc => hk hc.symm)]
        simp [List.filter_cons, hk]
    · have hstep : aggMapGo (s :: rest) isoDate acc = aggMapGo rest isoDate acc := by
        simp [aggMapGo, hs]
      rw [hstep, ih]
      simp [List.filter_cons, hs]

/-! ## Derived string-order facts -/

theorem jsLe_trans {a b c : String} (hba : jsLtStr b a = false)
    (hcb : jsLtStr c b = false) : jsLtStr c a = false := by
  cases hv : jsLtStr c a with
  | false => rfl
  | true =>
    exfalso
    rcases jsLtStr_trichotomy a b with h | h | h
    · have h2 := jsLtStr_trans hv h
      rw [hcb] at h2
      exact Bool.false_ne_true h2
    · subst h
      rw [hcb] at hv
      exact Bool.false_ne_true hv
    · rw [hba] at h
      exact Bool.false_ne_true h

theorem jsLe_total (a b : String) : jsLtStr b a = false ∨ jsLtStr a b = false := by
  rcases jsLtStr_trichotomy a b with h | h | h
  · exact Or.inl (jsLtStr_asymm h)
  · subst h
    exact Or.inl (jsLtStr_irrefl a)
  · exact Or.inr (jsLtStr_asymm h)

theorem jsLe_antisymm {a b : String} (hba : jsLtStr b a = false)
    (hab : jsLtStr a b = false) : a = b := by
  rcases jsLtStr_trichotomy a b with h | h | h
  · rw [hab] at h
    exact absurd h Bool.false_ne_true
  · exact h
  · rw [hba] at h
    exact absurd h Bool.false_ne_true

theorem localeCompareModel_le_iff (s t : String) :
    localeCompareModel s t ≤ 0 ↔ jsLtStr t s = false := by
  unfold localeCompareModel
  by_cases hst : jsLtStr s t
  · simp [hst, jsLtStr_asymm hst]
  · by_cases hts : jsLtStr t s
    · simp [hst, hts]
    · simp [hst, hts, Bool.eq_false_iff.mpr hts]

theorem localeCompareModel_lt_iff (s t : String) :
    localeCompareModel s t < 0 ↔ jsLtStr s t = true := by
  unfold localeCompareModel
  by_cases hst : jsLtStr s t
  · simp [hst]
  · by_cases hts : jsLtStr t s <;> simp [hst, hts]

theorem localeCompareModel_neg (s t : String) :
    localeCompareModel t s = -localeCompareModel s t := by
  unfold localeCompareModel
  by_cases hst : jsLtStr s t
  · simp [hst, jsLtStr_asymm hst]
  · by_cases hts : jsLtStr t s
    · simp [hst, hts]
    · simp [hst, hts]

/-- A year bound transfers along day-number order (valid dates). -/
theorem year_le_of_toRD_le {d1 d2 : CivilDate} (h1 : validDate d1)
    (h2 : validDate d2) (h : toRD d1 ≤ toRD d2) : d1.year ≤ d2.year := by
  by_contra hgt
  have := toRD_lt_of_lex h2 h1 (Or.inl (by omega))
  omega

/-! ## Claim C4: week window boundaries -/

/-- C4: the week window is Monday-start, Sunday-end. On the reference
Wednesday 2025-10-15, `getTimeRangeStart`/`getTimeRangeEnd` give 2025-10-13
(a Monday) and 2025-10-19 (a Sunday). In general, for every valid reference
date with a year in 1971–9999, the computed week start falls on day-of-week
1 (Monday) and the week end on day-of-week 0 (Sunday); a Sunday reference
(day-of-week 0) is offset by exactly −6 days; and the string-level
functions compute exactly these dates' ISO renderings. -/
theorem week_range_spec :
    getTimeRangeStart "2025-10-15" "week" = "2025-10-13" ∧
    getTimeRangeEnd "2025-10-15" "week" = "2025-10-19" ∧
    ∀ d : CivilDate, validDate d → 1971 ≤ d.year → d.year ≤ 9999 →
      dayOfWeek (getTimeRangeStartD d "week") = 1 ∧
      dayOfWeek (getTimeRangeEndD d "week") = 0 ∧
      (dayOfWeek d = 0 → toRD (getTimeRangeStartD d "week") = toRD d - 6) ∧
      getTimeRangeStart (toISO d) "week" = toISO (getTimeRangeStartD d "week") ∧
      getTimeRangeEnd (toISO d) "week" = toISO (getTimeRangeEndD d "week") := by
  refine ⟨by decide, by decide, ?_⟩
  intro d hd hy1 hy2
  refine ⟨weekStart_is_monday hd hy1, weekEnd_is_sunday hd,
    weekStart_sunday_offset hd hy1, ?_, ?_⟩
  · unfold getTimeRangeStart
    rw [parseISO_toISO hd hy2]
    simp
  · unfold getTimeRangeEnd
    rw [parseISO_toISO hd hy2]
    simp

/-- Witness for C4's general part at the concrete Wednesday 2025-10-15 and
the Sunday 2025-10-19. -/
theorem week_range_spec_witness :
    dayOfWeek (getTimeRangeStartD ⟨2025, 10, 15⟩ "week") = 1 ∧
    dayOfWeek (getTimeRangeEndD ⟨2025, 10, 15⟩ "week") = 0 ∧
    toRD (getTimeRangeStartD ⟨2025, 10, 19⟩ "week") = toRD ⟨2025, 10, 19⟩ - 6 := by
  have h1 := week_range_spec.2.2 ⟨2025, 10, 15⟩ (by decide) (by decide) (by decide)
  have h2 := week_range_spec.2.2 ⟨2025, 10, 19⟩ (by decide) (by decide) (by decide)
  exact ⟨h1.1, h1.2.1, h2.2.2.1 (by decide)⟩

/-! ## Claim C5: month window boundaries -/

/-- C5: for every valid reference date, the month window start has
day-of-month 1 (it is the first of the reference month) and the month
window end is the last calendar day of the reference month
(`daysInMonth`), which is February 29 in leap years — checked concretely
on 2024-02-10 (leap) and 2023-02-10 (non-leap). -/
theorem month_range_spec :
    getTimeRangeStart "2024-02-10" "month" = "2024-02-01" ∧
    getTimeRangeEnd "2024-02-10" "month" = "2024-02-29" ∧
    getTimeRangeEnd "2023-02-10" "month" = "2023-02-28" ∧
    ∀ d : CivilDate, validDate d →
      (getTimeRangeStartD d "month").day = 1 ∧
      getTimeRangeStartD d "month" = ⟨d.year, d.month, 1⟩ ∧
      getTimeRangeEndD d "month" = ⟨d.year, d.month, daysInMonth d.year d.month⟩ ∧
      (isLeap d.year = true → daysInMonth d.year 2 = 29) := by
  refine ⟨by decide, by decide, by decide, ?_⟩
  intro d hd
  refine ⟨?_, monthStart_spec hd, monthEnd_spec hd, ?_⟩
  · rw [monthStart_spec hd]
  · intro hleap
    simp [daysInMonth, hleap]

/-- Witness for C5's general part at the leap date 2024-02-10. -/
theorem month_range_spec_witness :
    (getTimeRangeStartD ⟨2024, 2, 10⟩ "month").day = 1 ∧
    getTimeRangeEndD ⟨2024, 2, 10⟩ "month" = ⟨2024, 2, 29⟩ := by
  have h := month_range_spec.2.2.2 ⟨2024, 2, 10⟩ (by decide)
  refine ⟨h.1, ?_⟩
  rw [h.2.2.1]
  decide

/-! ## Claim C10: date navigation keeps the viewed date non-future -/

/-- C10: the navigation handlers preserve `dateISO <= todayISO` (ISO-string
comparison, as the code performs it). The date picker clamps any value
above today back to today and keeps non-future values; the Today button
lands on today; the next-day button leaves the date unchanged unless it is
strictly before today, advances it by one calendar day in that case, and —
for valid dates — that successor never passes today. -/
theorem navigation_spec :
    (∀ today v : String, jsGtStr (datePickerChange today v) today = false ∧
      (jsGtStr v today = false → datePickerChange today v = v)) ∧
    (∀ today : String, jsGtStr (todayClick today) today = false) ∧
    (∀ today date : String, jsLtStr date today = false →
      nextDayClick today date = date) ∧
    (∀ today date : String, jsLtStr date today = true →
      nextDayClick today date = addDays date 1) ∧
    (∀ d t : CivilDate, validDate d → validDate t →
      1971 ≤ d.year → d.year ≤ 9999 → t.year ≤ 9999 →
      jsGtStr (toISO d) (toISO t) = false →
      jsGtStr (nextDayClick (toISO t) (toISO d)) (toISO t) = false) := by
  refine ⟨?_, ?_, ?_, ?_, ?_⟩
  · intro today v
    constructor
    · unfold datePickerChange
      by_cases h : jsGtStr v today = true
      · rw [if_pos h]
        exact jsLtStr_irrefl today
      · rw [if_neg h]
        cases hv : jsGtStr v today
        · rfl
        · exact absurd hv h
    · intro h
      unfold datePickerChange
      rw [if_neg (by rw [h]; exact Bool.false_ne_true)]
  · intro today
    exact jsLtStr_irrefl today
  · intro today date h
    unfold nextDayClick
    by_cases heq : date = today
    · rw [if_pos heq]
    · rw [if_neg heq, if_pos h]
  · intro today date h
    unfold nextDayClick
    have heq : date ≠ today := by
      intro hc
      rw [hc, jsLtStr_irrefl] at h
      exact Bool.false_ne_true h
    rw [if_neg heq, if_neg (show ¬ jsLtStr date today = false by rw [h]; simp)]
  · intro d t hd ht hy1 hy2 ht2 hle
    unfold nextDayClick
    by_cases heq : toISO d = toISO t
    · rw [if_pos heq, heq]
      exact jsLtStr_irrefl (toISO t)
    · rw [if_neg heq]
      by_cases hge : jsLtStr (toISO d) (toISO t) = false
      · rw [if_pos hge]
        exact hle
      · rw [if_neg hge]
        have hlt : jsLtStr (toISO d) (toISO t) = true := by
          cases hv : jsLtStr (toISO d) (toISO t)
          · exact absurd hv hge
          · rfl
        have hrdlt : toRD d < toRD t := (toISO_lt_iff hd ht hy2 ht2).mp hlt
        unfold addDays
        rw [parseISO_toISO hd hy2]
        have haddd : addDaysD d 1 = fromRD (toRD d + 1) := by
          rw [addDaysD_rd hd 1]
          congr 1
        show jsGtStr (toISO (addDaysD d 1)) (toISO t) = false
        rw [haddd]
        have hrt := toRD_fromRD (toRD d + 1)
        have hd'le : toRD (fromRD (toRD d + 1)) ≤ toRD t := by omega
        have hd'year : (fromRD (toRD d + 1)).year ≤ 9999 :=
          le_trans (year_le_of_toRD_le hrt.2 ht hd'le) ht2
        show jsLtStr (toISO t) (toISO (fromRD (toRD d + 1))) = false
        cases hv : jsLtStr (toISO t) (toISO (fromRD (toRD d + 1))) with
        | false => rfl
        | true =>
          exfalso
          have := (toISO_lt_iff ht hrt.2 ht2 hd'year).mp hv
          omega

/-- Witness for C10 at 2025-10-14 viewed against today 2025-10-15. -/
theorem navigation_spec_witness :
    jsGtStr (nextDayClick (toISO ⟨2025, 10, 15⟩) (toISO ⟨2025, 10, 14⟩))
        (toISO ⟨2025, 10, 15⟩) = false ∧
    datePickerChange "2025-10-15" "2025-10-10" = "2025-10-10" ∧
    nextDayClick "2025-10-15" "2025-10-15" = "2025-10-15" := by
  refine ⟨navigation_spec.2.2.2.2 ⟨2025, 10, 14⟩ ⟨2025, 10, 15⟩ (by decide)
      (by decide) (by decide) (by decide) (by decide) (by decide),
    (navigation_spec.1 "2025-10-15" "2025-10-10").2 (by decide),
    navigation_spec.2.2.1 "2025-10-15" "2025-10-15" (by decide)⟩

/-! ## addSession case analysis -/

/-- The duplicate-rejection message is never the empty string, whatever
display name it embeds. -/
theorem dupMsg_ne_empty (x : String) :
    "Activity \"" ++ x ++ "\" already exists for this date." ≠ "" := by
  intro hc
  have h := congrArg String.data hc
  rw [String.data_append, String.data_append] at h
  rcases List.append_eq_nil.mp h with ⟨h1, _⟩
  rcases List.append_eq_nil.mp h1 with ⟨h3, _⟩
  exact absurd h3 (by decide)

/-- Either `addSession` only sets a message (rejection), or it reports no
error (acceptance). -/
theorem addSession_total (ctx : AddCtx) (st : AppState) :
    addSession ctx st = { st with error := (addSession ctx st).error } ∨
      (addSession ctx st).error = "" := by
  simp only [addSession]
  split
  · exact Or.inl rfl
  · split
    · exact Or.inl rfl
    · split
      · exact Or.inl rfl
      · split
        · exact Or.inl rfl
        · split
          · exact Or.inl rfl
          · split
            · exact Or.inl rfl
            · exact Or.inr rfl

/-! ## Claim C8: validation errors mutate nothing but the message -/

/-- C8: whenever `addSession` reports a validation error (any of: future
date, empty name, bad hours, bad minutes, non-positive total, duplicate
activity-for-date — all of which leave a nonempty message), the resulting
state differs from the input state only in the error message: the session
list, activity-usage map, display-name map, journal, viewed date and every
form field are retained. -/
theorem addSession_error_frame (ctx : AddCtx) (st : AppState)
    (herr : (addSession ctx st).error ≠ "") :
    addSession ctx st = { st with error := (addSession ctx st).error } := by
  rcases addSession_total ctx st with h | h
  · exact h
  · exact absurd h herr

/-- Witness for C8: an empty activity name is rejected and the state is
otherwise untouched. -/
theorem addSession_error_frame_witness :
    addSession ⟨"2025-10-15", 1000, "id1"⟩
        ⟨[], [], [], [], "2025-10-14", "", "", 1, 0, "", false, "", false⟩ =
      { (⟨[], [], [], [], "2025-10-14", "", "", 1, 0, "", false, "", false⟩ :
          AppState) with
        error := (addSession ⟨"2025-10-15", 1000, "id1"⟩
          ⟨[], [], [], [], "2025-10-14", "", "", 1, 0, "", false, "", false⟩).error } :=
  addSession_error_frame _ _ (by decide)

/-! ## Claim C9: created sessions store a positive integral duration -/

/-- C9: when `addSession` accepts (no error message), exactly one session is
appended, its stored `minutes` is the integer `hours * 60 + minutes` of the
submitted form fields, and that total is strictly positive. (Durations are
integers by the field model: the `min="0" step="1"` number inputs submit
integral values.) -/
theorem addSession_minutes_positive (ctx : AddCtx) (st : AppState)
    (hok : (addSession ctx st).error = "") :
    (addSession ctx st).sessions =
      st.sessions ++ [⟨ctx.newId, jsTrim st.activity,
        st.hours * 60 + st.minutes, st.dateISO⟩] ∧
    0 < st.hours * 60 + st.minutes := by
  simp only [addSession] at hok ⊢
  split at hok
  · simp at hok
  · split at hok
    · simp at hok
    · split at hok
      · simp at hok
      · split at hok
        · simp at hok
        · split at hok
          · simp at hok
          · rename_i hfut hname hhours hmins htot
            split at hok
            · exact absurd hok (dupMsg_ne_empty _)
            · rename_i hfind
              rw [if_neg hfut, if_neg hname, if_neg hhours, if_neg hmins,
                if_neg htot]
              exact ⟨rfl, by omega⟩

/-- Witness for C9: "Running" for 0 h 30 min on 2025-10-14 is accepted and
stores 30 positive minutes. -/
theorem addSession_minutes_positive_witness :
    (addSession ⟨"2025-10-15", 1000, "id1"⟩
        ⟨[], [], [], [], "2025-10-14", "", "Running", 0, 30, "", false, "",
          false⟩).sessions =
      ([] : List Session) ++
        [⟨"id1", jsTrim "Running", (0 : Int) * 60 + 30, "2025-10-14"⟩] ∧
    (0 : Int) < 0 * 60 + 30 :=
  addSession_minutes_positive _ _ (by decide)

/-! ## Claim C1: duplicate activity-for-date rejection -/

/-- C1: if some stored session carries activity name `a` on the currently
viewed date, and the submitted name (trimmed form input) `b` has the same
canonical key as `a`, then an otherwise valid submission is rejected with
the message naming the canonical key's display name, and the state is
unchanged except for that message — in particular no session is added. -/
theorem addSession_duplicate_reject (ctx : AddCtx) (st : AppState) (a b : String)
    (hnorm : normalizeActivityName a = normalizeActivityName b)
    (hexists : ∃ s ∈ st.sessions, s.activity = a ∧ s.dateISO = st.dateISO)
    (hform : jsTrim st.activity = b)
    (hnotfut : jsGtStr st.dateISO ctx.today = false)
    (hb : b ≠ "")
    (hhours : 0 ≤ st.hours) (hmin0 : 0 ≤ st.minutes) (hmin59 : st.minutes ≤ 59)
    (htot : 0 < st.hours * 60 + st.minutes) :
    addSession ctx st = { st with error := ("Activity \"" ++
      getDisplayName (normalizeActivityName b) st.activityNames ++
      "\" already exists for this date.") } := by
  subst hform
  simp only [addSession]
  rw [if_neg (show ¬ jsGtStr st.dateISO ctx.today = true by
    rw [hnotfut]; simp)]
  rw [if_neg hb]
  rw [if_neg (show ¬ st.hours < 0 by omega)]
  rw [if_neg (show ¬ (st.minutes < 0 ∨ st.minutes > 59) by omega)]
  rw [if_neg (show ¬ st.hours * 60 + st.minutes ≤ 0 by omega)]
  obtain ⟨s0, hs0mem, hs0act, hs0date⟩ := hexists
  have hfind : (st.sessions.find? (fun s =>
      normalizeActivityName s.activity =
        normalizeActivityName (jsTrim st.activity) &&
      s.dateISO = st.dateISO)).isSome := by
    refine List.find?_isSome.mpr ⟨s0, hs0mem, ?_⟩
    rw [hs0act, hs0date]
    simp [hnorm]
  rcases Option.isSome_iff_exists.mp hfind with ⟨w, hw⟩
  rw [hw]

/-- Witness for C1: a stored "Running" session for the viewed date makes the
"running" submission fail with the display-name message. -/
theorem addSession_duplicate_reject_witness :
    addSession ⟨"2025-10-15", 1000, "id2"⟩
        ⟨[⟨"id1", "Running", 30, "2025-10-14"⟩], [], [],
          [("running", "Running")], "2025-10-14", "", "running", 0, 15, "",
          false, "", false⟩ =
      { (⟨[⟨"id1", "Running", 30, "2025-10-14"⟩], [], [],
          [("running", "Running")], "2025-10-14", "", "running", 0, 15, "",
          false, "", false⟩ : AppState) with
        error := ("Activity \"" ++
          getDisplayName (normalizeActivityName "running")
            [("running", "Running")] ++
          "\" already exists for this date.") } :=
  addSession_duplicate_reject ⟨"2025-10-15", 1000, "id2"⟩
    ⟨[⟨"id1", "Running", 30, "2025-10-14"⟩], [], [],
      [("running", "Running")], "2025-10-14", "", "running", 0, 15, "",
      false, "", false⟩ "Running" "running" (by decide)
    ⟨⟨"id1", "Running", 30, "2025-10-14"⟩, by decide, by decide, by decide⟩
    (by decide) (by decide) (by decide) (by decide) (by decide) (by decide)
    (by decide)

/-! ## Claim C7: cascade delete for the selected activity and date -/

/-- C7: with a selected activity, the delete handler removes — within the
single synchronous state update it performs — exactly the sessions and
journal entries whose normalized activity/word equals the selected word's
canonical key and whose date is the viewed date: those records' counts drop
to zero, every other record keeps its multiplicity, surviving records keep
their relative order (sublists), and the other stores and the viewed date
are untouched. -/
theorem handleDeleteActivity_spec (st : AppState)
    (hsel : st.selectedWord ≠ "") :
    (∀ s : Session, (handleDeleteActivity st).sessions.count s =
      (if normalizeActivityName s.activity =
            normalizeActivityName st.selectedWord ∧ s.dateISO = st.dateISO
        then 0 else st.sessions.count s)) ∧
    (∀ e : JEntry, (handleDeleteActivity st).journalEntries.count e =
      (if normalizeActivityName e.word =
            normalizeActivityName st.selectedWord ∧ e.dateISO = st.dateISO
        then 0 else st.journalEntries.count e)) ∧
    (handleDeleteActivity st).sessions.Sublist st.sessions ∧
    (handleDeleteActivity st).journalEntries.Sublist st.journalEntries ∧
    (handleDeleteActivity st).activityUsage = st.activityUsage ∧
    (handleDeleteActivity st).activityNames = st.activityNames ∧
    (handleDeleteActivity st).dateISO = st.dateISO ∧
    (handleDeleteActivity st).error = st.error := by
  have hred : handleDeleteActivity st =
      { st with
        sessions := st.sessions.filter (fun s =>
          !(normalizeActivityName s.activity =
              normalizeActivityName st.selectedWord &&
            s.dateISO = st.dateISO))
        journalEntries := st.journalEntries.filter (fun e =>
          !(normalizeActivityName e.word =
              normalizeActivityName st.selectedWord &&
            e.dateISO = st.dateISO))
        isPanelOpen := false
        selectedWord := "" } := by
    simp [handleDeleteActivity, hsel]
  rw [hred]
  refine ⟨?_, ?_, List.filter_sublist _, List.filter_sublist _, rfl, rfl, rfl, rfl⟩
  · intro s
    by_cases hmatch : normalizeActivityName s.activity =
        normalizeActivityName st.selectedWord ∧ s.dateISO = st.dateISO
    · rw [if_pos hmatch]
      refine List.count_eq_zero.mpr ?_
      intro hmem
      have := (List.mem_filter.mp hmem).2
      simp [hmatch.1, hmatch.2] at this
    · rw [if_neg hmatch]
      refine List.count_filter ?_
      simp
      tauto
  · intro e
    by_cases hmatch : normalizeActivityName e.word =
        normalizeActivityName st.selectedWord ∧ e.dateISO = st.dateISO
    · rw [if_pos hmatch]
      refine List.count_eq_zero.mpr ?_
      intro hmem
      have := (List.mem_filter.mp hmem).2
      simp [hmatch.1, hmatch.2] at this
    · rw [if_neg hmatch]
      refine List.count_filter ?_
      simp
      tauto

/-- Witness for C7: deleting "Running" on 2025-10-14 removes that day's
session and journal entry and keeps the 2025-10-15 ones. -/
theorem handleDeleteActivity_spec_witness :
    (handleDeleteActivity ⟨[⟨"s1", "Running", 30, "2025-10-14"⟩,
          ⟨"s2", "Running", 15, "2025-10-15"⟩],
        [⟨"j1", "running", "note A", "2025-10-14", "t1"⟩,
          ⟨"j2", "Running", "note B", "2025-10-15", "t2"⟩],
        [], [], "2025-10-14", "", "", 0, 0, "", false, "Running",
        true⟩).sessions.count ⟨"s1", "Running", 30, "2025-10-14"⟩ = 0 ∧
    (handleDeleteActivity ⟨[⟨"s1", "Running", 30, "2025-10-14"⟩,
          ⟨"s2", "Running", 15, "2025-10-15"⟩],
        [⟨"j1", "running", "note A", "2025-10-14", "t1"⟩,
          ⟨"j2", "Running", "note B", "2025-10-15", "t2"⟩],
        [], [], "2025-10-14", "", "", 0, 0, "", false, "Running",
        true⟩).sessions.count ⟨"s2", "Running", 15, "2025-10-15"⟩ = 1 ∧
    (handleDeleteActivity ⟨[⟨"s1", "Running", 30, "2025-10-14"⟩,
          ⟨"s2", "Running", 15, "2025-10-15"⟩],
        [⟨"j1", "running", "note A", "2025-10-14", "t1"⟩,
          ⟨"j2", "Running", "note B", "2025-10-15", "t2"⟩],
        [], [], "2025-10-14", "", "", 0, 0, "", false, "Running",
        true⟩).journalEntries.count ⟨"j1", "running", "note A", "2025-10-14", "t1"⟩ = 0 ∧
    (handleDeleteActivity ⟨[⟨"s1", "Running", 30, "2025-10-14"⟩,
          ⟨"s2", "Running", 15, "2025-10-15"⟩],
        [⟨"j1", "running", "note A", "2025-10-14", "t1"⟩,
          ⟨"j2", "Running", "note B", "2025-10-15", "t2"⟩],
        [], [], "2025-10-14", "", "", 0, 0, "", false, "Running",
        true⟩).journalEntries.count ⟨"j2", "Running", "note B", "2025-10-15", "t2"⟩ = 1 := by
  have h := handleDeleteActivity_spec ⟨[⟨"s1", "Running", 30, "2025-10-14"⟩,
      ⟨"s2", "Running", 15, "2025-10-15"⟩],
    [⟨"j1", "running", "note A", "2025-10-14", "t1"⟩,
      ⟨"j2", "Running", "note B", "2025-10-15", "t2"⟩],
    [], [], "2025-10-14", "", "", 0, 0, "", false, "Running", true⟩ (by decide)
  refine ⟨?_, ?_, ?_, ?_⟩
  · have h1 := h.1 ⟨"s1", "Running", 30, "2025-10-14"⟩
    rw [if_pos ⟨by decide, by decide⟩] at h1
    exact h1
  · have h1 := h.1 ⟨"s2", "Running", 15, "2025-10-15"⟩
    rw [if_neg (by decide)] at h1
    rw [h1]
    decide
  · have h1 := h.2.1 ⟨"j1", "running", "note A", "2025-10-14", "t1"⟩
    rw [if_pos ⟨by decide, by decide⟩] at h1
    exact h1
  · have h1 := h.2.1 ⟨"j2", "Running", "note B", "2025-10-15", "t2"⟩
    rw [if_neg (by decide)] at h1
    rw [h1]
    decide

/-! ## Claim C2: aggregation by canonical activity key -/

/-- C2: `aggregateForDate` keeps exactly the sessions whose `dateISO` equals
the target date; its grouping map is keyed by the normalized activity name,
each canonical key appearing at most once; each key's value is the sum of
the minutes of the kept sessions with that key; and the output maps each
key through the display-name map, falling back to the key itself when the
map has no entry. -/
theorem aggregateForDate_spec (sessions : List Session) (isoDate : String)
    (activityNames : List (String × String)) :
    ((aggMap sessions isoDate).map Prod.fst).Nodup ∧
    (∀ k, k ∈ (aggMap sessions isoDate).map Prod.fst ↔
      ∃ s ∈ sessions, s.dateISO = isoDate ∧
        normalizeActivityName s.activity = k) ∧
    (∀ k v, (k, v) ∈ aggMap sessions isoDate →
      v = ((sessions.filter (fun s => s.dateISO = isoDate &&
        normalizeActivityName s.activity = k)).map Session.minutes).sum) ∧
    aggregateForDate sessions isoDate activityNames =
      (aggMap sessions isoDate).map
        (fun p => ⟨getDisplayName p.1 activityNames, p.2⟩) ∧
    (∀ k, objGet activityNames k = none →
      getDisplayName k activityNames = k) := by
  have hnodup : ((aggMap sessions isoDate).map Prod.fst).Nodup := by
    rw [aggMap_eq_go]
    exact aggMapGo_nodup sessions isoDate [] (by simp)
  refine ⟨hnodup, ?_, ?_, rfl, ?_⟩
  · intro k
    rw [aggMap_eq_go]
    rw [aggMapGo_keys sessions isoDate [] k]
    simp
  · intro k v hmem
    have hlook : objGet (aggMap sessions isoDate) k = some v :=
      objGet_of_mem hnodup hmem
    have hval := aggMapGo_value sessions isoDate [] k
    rw [← aggMap_eq_go] at hval
    rw [hlook] at hval
    simpa [objGet] using hval
  · intro k hnone
    simp [getDisplayName, hnone]

/-- Witness for C2 on a two-casing, two-date session list. -/
theorem aggregateForDate_spec_witness :
    (45 : Int) = ((([⟨"i1", "Running", 30, "2025-10-14"⟩,
        ⟨"i2", "running", 15, "2025-10-14"⟩,
        ⟨"i3", "Running", 20, "2025-10-15"⟩] : List Session).filter
      (fun s => s.dateISO = "2025-10-14" &&
        normalizeActivityName s.activity = "running")).map
          Session.minutes).sum ∧
    getDisplayName "yoga" [("running", "Running")] = "yoga" := by
  have h := aggregateForDate_spec
    [⟨"i1", "Running", 30, "2025-10-14"⟩, ⟨"i2", "running", 15, "2025-10-14"⟩,
      ⟨"i3", "Running", 20, "2025-10-15"⟩] "2025-10-14" [("running", "Running")]
  exact ⟨h.2.2.1 "running" 45 (by decide), h.2.2.2.2 "yoga" (by decide)⟩

/-! ## Claim C6: the three-tier ranking comparator -/

theorem objGet_mem {α : Type} {m : List (String × α)} {k : String} {v : α}
    (h : objGet m k = some v) : (k, v) ∈ m := by
  induction m with
  | nil => simp [objGet] at h
  | cons p ps ih =>
    rcases p with ⟨p1, p2⟩
    by_cases hp : p1 = k
    · simp [objGet, hp] at h
      simp [hp, h]
    · rw [show objGet ((p1, p2) :: ps) k = objGet ps k by simp [objGet, hp]] at h
      exact List.mem_cons.mpr (Or.inr (ih h))

theorem activityTime_nonneg (usage : List (String × Int))
    (husage : ∀ p ∈ usage, 0 ≤ p.2) (a : String) :
    0 ≤ activityTime usage a := by
  unfold activityTime
  cases hv : objGet usage (normalizeActivityName a) with
  | none => simp
  | some v =>
    simp only [Option.getD_some]
    exact husage _ (objGet_mem hv)

/-- The comparator is antisymmetric in sign: swapping arguments negates it. -/
theorem activityCmp_neg (usage : List (String × Int)) (a b : String) :
    activityCmp usage b a = -activityCmp usage a b := by
  simp only [activityCmp]
  split_ifs <;> first
    | omega
    | exact localeCompareModel_neg _ _

/-- C6: the ranking comparator realizes the three tiers — (a) both
activities have a (positive) usage timestamp: ordered by descending
recency; (b) exactly one has a timestamp: it comes first; (c) neither has
one: ascending case-insensitive alphabetical — and, for timestamp maps with
non-negative entries (epoch milliseconds), the induced relation
`activityCmp ≤ 0` is a single total order: transitive, total, and
sign-antisymmetric. -/
theorem activityCmp_spec (usage : List (String × Int))
    (husage : ∀ p ∈ usage, 0 ≤ p.2) :
    (∀ a b, 0 < activityTime usage a → 0 < activityTime usage b →
      (activityCmp usage a b < 0 ↔
        activityTime usage b < activityTime usage a)) ∧
    (∀ a b, 0 < activityTime usage a → activityTime usage b = 0 →
      activityCmp usage a b < 0) ∧
    (∀ a b, 0 < activityTime usage b → activityTime usage a = 0 →
      0 < activityCmp usage a b) ∧
    (∀ a b, activityTime usage a = 0 → activityTime usage b = 0 →
      activityCmp usage a b =
        localeCompareModel (jsToLower a) (jsToLower b) ∧
      (activityCmp usage a b < 0 ↔
        jsLtStr (jsToLower a) (jsToLower b) = true)) ∧
    (∀ a b, activityCmp usage b a = -activityCmp usage a b) ∧
    (∀ a b c, activityCmp usage a b ≤ 0 → activityCmp usage b c ≤ 0 →
      activityCmp usage a c ≤ 0) ∧
    (∀ a b, activityCmp usage a b ≤ 0 ∨ activityCmp usage b a ≤ 0) := by
  refine ⟨?_, ?_, ?_, ?_, activityCmp_neg usage, ?_, ?_⟩
  · intro a b ha hb
    simp only [activityCmp]
    rw [if_pos ⟨ha, hb⟩]
    omega
  · intro a b ha hb0
    simp only [activityCmp]
    rw [if_neg (by rintro ⟨_, h⟩; omega), if_pos ⟨ha, hb0⟩]
    decide
  · intro a b hb ha0
    simp only [activityCmp]
    rw [if_neg (by rintro ⟨h, _⟩; omega), if_neg (by rintro ⟨h, _⟩; omega),
      if_pos ⟨hb, ha0⟩]
    decide
  · intro a b ha0 hb0
    simp only [activityCmp]
    rw [if_neg (by rintro ⟨h, _⟩; omega), if_neg (by rintro ⟨h, _⟩; omega),
      if_neg (by rintro ⟨h, _⟩; omega)]
    exact ⟨rfl, localeCompareModel_lt_iff _ _⟩
  · intro a b c h1 h2
    have haT := activityTime_nonneg usage husage a
    have hbT := activityTime_nonneg usage husage b
    have hcT := activityTime_nonneg usage husage c
    simp only [activityCmp] at h1 h2 ⊢
    split_ifs at h1 h2 ⊢ <;> first
      | omega
      | (rw [localeCompareModel_le_iff] at h1 h2 ⊢; exact jsLe_trans h1 h2)
  · intro a b
    have := activityCmp_neg usage a b
    omega

/-- Witness for C6 on a small usage map: recency beats recency, timestamped
beats untimestamped, and untimestamped pairs order alphabetically. -/
theorem activityCmp_spec_witness :
    activityCmp [("running", 100), ("yoga", 50)] "Running" "Yoga" < 0 ∧
    activityCmp [("running", 100), ("yoga", 50)] "Running" "Zebra" < 0 ∧
    activityCmp [("running", 100), ("yoga", 50)] "Alpha" "Beta" < 0 := by
  have h := activityCmp_spec [("running", 100), ("yoga", 50)] (by decide)
  refine ⟨?_, ?_, ?_⟩
  · exact (h.1 "Running" "Yoga" (by decide) (by decide)).mpr (by decide)
  · exact h.2.1 "Running" "Zebra" (by decide) (by decide)
  · exact (h.2.2.2.1 "Alpha" "Beta" (by decide) (by decide)).2.mpr (by decide)

/-! ## Claim C3: word-cloud layout determinism -/

/-- If two lists are permutations and the comparator separates their
distinct elements, the stable JS sorts agree. -/
theorem jsSortStable_eq_of_perm {α : Type} (le : α → α → Bool)
    (htotal : ∀ a b, le a b = true ∨ le b a = true)
    (htrans : ∀ a b c, le a b = true → le b c = true → le a c = true)
    {l1 l2 : List α} (hperm : l1.Perm l2)
    (hanti : ∀ a ∈ l1, ∀ b ∈ l1, le a b = true → le b a = true → a = b) :
    jsSortStable le l1 = jsSortStable le l2 := by
  apply sorted_perm_unique
  · exact (jsSortStable_perm le l1).trans
      (hperm.trans (jsSortStable_perm le l2).symm)
  · exact jsSortStable_sorted htotal htrans l1
  · exact jsSortStable_sorted htotal htrans l2
  · intro a ha b hb
    exact hanti a ((jsSortStable_perm le l1).mem_iff.mp ha)
      b ((jsSortStable_perm le l1).mem_iff.mp hb)

/-- C3 (amended): for input data sets with pairwise-distinct texts (after
the component's positive-value/nonempty-text filter), any two orderings of
the same multiset give the same canonical serialization, hence the same
32-bit hash, the same seed and the same full generator output stream, and
the same word count (hence canvas shrink); if additionally the values are
pairwise distinct, the descending-value placement order — the entire input
of the placement loop — is also identical. -/
theorem cloud_determinism (data1 data2 : List WordItem)
    (hperm : data1.Perm data2)
    (htext : ((wordsOf data1).map WordItem.text).Nodup) :
    derivedKey (wordsOf data1) = derivedKey (wordsOf data2) ∧
    hashString (derivedKey (wordsOf data1)) =
      hashString (derivedKey (wordsOf data2)) ∧
    (∀ n, mulberry32Stream (hashString (derivedKey (wordsOf data1))) n =
      mulberry32Stream (hashString (derivedKey (wordsOf data2))) n) ∧
    (wordsOf data1).length = (wordsOf data2).length ∧
    shrinkClass (wordsOf data1).length = shrinkClass (wordsOf data2).length ∧
    (((wordsOf data1).map WordItem.value).Nodup →
      sortWordsByValueDesc (wordsOf data1) =
        sortWordsByValueDesc (wordsOf data2)) := by
  have hpermW : (wordsOf data1).Perm (wordsOf data2) := hperm.filter _
  have hsortText : sortWordsByText (wordsOf data1) =
      sortWordsByText (wordsOf data2) := by
    apply jsSortStable_eq_of_perm _ ?_ ?_ hpermW ?_
    · intro a b
      rcases jsLe_total a.text b.text with h | h
      · exact Or.inl (by simp [(localeCompareModel_le_iff a.text b.text).mpr h])
      · exact Or.inr (by simp [(localeCompareModel_le_iff b.text a.text).mpr h])
    · intro a b c hab hbc
      simp only [decide_eq_true_eq] at hab hbc ⊢
      rw [localeCompareModel_le_iff] at hab hbc ⊢
      exact jsLe_trans hab hbc
    · intro a ha b hb hab hba
      simp only [decide_eq_true_eq] at hab hba
      rw [localeCompareModel_le_iff] at hab hba
      have htxt : a.text = b.text := jsLe_antisymm hab hba
      exact List.inj_on_of_nodup_map htext ha hb htxt
  have hkey : derivedKey (wordsOf data1) = derivedKey (wordsOf data2) := by
    unfold derivedKey wordSig
    rw [hsortText]
  refine ⟨hkey, by rw [hkey], fun n => by rw [hkey], hpermW.length_eq,
    by rw [hpermW.length_eq], ?_⟩
  intro hval
  apply jsSortStable_eq_of_perm _ ?_ ?_ hpermW ?_
  · intro a b
    simp only [decide_eq_true_eq]
    omega
  · intro a b c hab hbc
    simp only [decide_eq_true_eq] at hab hbc ⊢
    omega
  · intro a ha b hb hab hba
    simp only [decide_eq_true_eq] at hab hba
    have hv : a.value = b.value := by omega
    exact List.inj_on_of_nodup_map hval ha hb hv

/-- Witness for C3 (amended) on two orderings of a two-word data set. -/
theorem cloud_determinism_witness :
    derivedKey (wordsOf [⟨"Running", 30⟩, ⟨"Reading", 15⟩]) =
      derivedKey (wordsOf [⟨"Reading", 15⟩, ⟨"Running", 30⟩]) ∧
    sortWordsByValueDesc (wordsOf [⟨"Running", 30⟩, ⟨"Reading", 15⟩]) =
      sortWordsByValueDesc (wordsOf [⟨"Reading", 15⟩, ⟨"Running", 30⟩]) := by
  have h := cloud_determinism [⟨"Running", 30⟩, ⟨"Reading", 15⟩]
    [⟨"Reading", 15⟩, ⟨"Running", 30⟩]
    (List.Perm.swap (⟨"Reading", 15⟩ : WordItem) ⟨"Running", 30⟩ []) (by decide)
  exact ⟨h.1, h.2.2.2.2.2 (by decide)⟩

/-- C3 counterexample: two orderings of one multiset that repeats a text
produce different canonical keys (the stable text sort keeps the original
relative order of equal texts), hence different hashes and seeds. -/
theorem cloud_determinism_counterexample :
    ([⟨"a", 1⟩, ⟨"a", 2⟩] : List WordItem).Perm [⟨"a", 2⟩, ⟨"a", 1⟩] ∧
    derivedKey (wordsOf [⟨"a", 1⟩, ⟨"a", 2⟩]) ≠
      derivedKey (wordsOf [⟨"a", 2⟩, ⟨"a", 1⟩]) ∧
    hashString (derivedKey (wordsOf [⟨"a", 1⟩, ⟨"a", 2⟩])) ≠
      hashString (derivedKey (wordsOf [⟨"a", 2⟩, ⟨"a", 1⟩])) :=
  ⟨List.Perm.swap (⟨"a", 2⟩ : WordItem) ⟨"a", 1⟩ [], by decide, by decide⟩
